import Mathlib

/- Verification of the OCR field-extraction core of `birth_cert_intl.py`:
   the civil-status checkbox resolver, the electronic-seal footer scanner,
   the place-name exonym normalizer, the table-to-record extractor and the
   comune/sezione header scanner, shallowly embedded over an explicit model
   of the OCR block graph.  Fallible dictionary accesses of the Python code
   (a missing key raises `KeyError`) are modelled by `Option`: `none` is an
   uncaught exception, `some` a normal return. -/

namespace BirthCert

/-- Python `str.lower` on one character, for the character repertoire of the
certificates: ASCII via `Char.toLower` plus the Albanian letters `Ë` and `Ç`. -/
def lc (c : Char) : Char :=
  if c = 'Ë' then 'ë' else if c = 'Ç' then 'ç' else c.toLower

/-- Python `str.upper` on one character (same repertoire as `lc`). -/
def uc (c : Char) : Char :=
  if c = 'ë' then 'Ë' else if c = 'ç' then 'Ç' else c.toUpper

/-- Python `str.lower`. -/
def pyLower (s : String) : String := ⟨s.data.map lc⟩

/-- Python `str.upper`. -/
def pyUpper (s : String) : String := ⟨s.data.map uc⟩

/-- Python `str.strip()`: drop whitespace on both ends. -/
def pyStrip (s : String) : String :=
  ⟨((s.data.dropWhile Char.isWhitespace).reverse.dropWhile Char.isWhitespace).reverse⟩

/-- Contiguous-sublist test: `sub` occurs somewhere in the list. -/
def hasInfix (sub : List Char) : List Char → Bool
  | [] => sub.isEmpty
  | c :: t => sub.isPrefixOf (c :: t) || hasInfix sub t

/-- Python substring test `sub in s`. -/
def strContains (s sub : String) : Bool := hasInfix sub.data s.data

/-- Python `str.startswith`. -/
def pyStartsWith (s p : String) : Bool := p.data.isPrefixOf s.data

/-- One step of Python `str.replace` (all non-overlapping occurrences, left to
right), with explicit fuel so that the definition is structurally recursive;
the fuel is always instantiated with the length of the list, which suffices
because every step consumes at least one character. -/
def replListF (pat repl : List Char) : Nat → List Char → List Char
  | _, [] => []
  | 0, l => l
  | f + 1, c :: t =>
    if pat.isPrefixOf (c :: t) then repl ++ replListF pat repl f ((c :: t).drop pat.length)
    else c :: replListF pat repl f t

/-- Python `str.replace` for a non-empty pattern (every pattern used by the
source is non-empty; for an empty pattern we return the string unchanged). -/
def pyReplace (s pat repl : String) : String :=
  if pat = "" then s else ⟨replListF pat.data repl.data s.data.length s.data⟩

-- ── OCR block data model (AWS Textract block graph, §3 of the spec) ─────────
/-- Geometry.BoundingBox of a block: normalized page coordinates. -/
structure BoundingBox where
  top : Rat
  height : Rat
  left : Rat
  width : Rat
deriving DecidableEq

/-- One entry of a block's `Relationships` list. `ids` models
`rel.get("Ids", [])`, which defaults to the empty list. -/
structure Relationship where
  relType : String
  ids : List String
deriving DecidableEq

/-- An OCR block.  `text`, `geometry`, `rowIndex`, `columnIndex` are `Option`
because the corresponding dictionary keys may be absent (accessing an absent
key raises `KeyError` in the source, modelled as `none` of the enclosing
computation).  `relationships` models `b.get("Relationships", [])`. -/
structure Block where
  id : String
  blockType : String
  text : Option String := none
  geometry : Option BoundingBox := none
  rowIndex : Option Nat := none
  columnIndex : Option Nat := none
  relationships : List Relationship := []
deriving DecidableEq

/-- The block index `bmap = {b["Id"]: b for b in blocks}` of the main flow:
a later block with the same id overwrites an earlier one. -/
def mkBmap (blocks : List Block) : String → Option Block :=
  fun i => blocks.reverse.find? (fun b => b.id == i)

-- ── Civil-status checkbox resolver (`get_stato_from_vertical_boxes`) ────────
/-- The four status keyword fragments with their label indices. -/
def fragments : List (String × Nat) :=
  [("beqar", 0), ("martu", 1), ("shkuror", 2), ("vedov", 3)]

/-- Masculine Italian civil-status forms, by label index. -/
def maleForms : List String := ["Celibe", "Coniugato", "Divorziato", "Vedovo"]

/-- Feminine Italian civil-status forms, by label index. -/
def femaleForms : List String := ["Nubile", "Coniugata", "Divorziata", "Vedova"]

/-- The fixed unresolved sentinel returned by the resolver. -/
def statoSentinel : String := "[X] Stato non riconosciuto"

/-- Inner loop of the first phase: for each fragment matching the (stripped,
lowercased) word text whose index is not yet recorded, record the word's
vertical centre.  Accessing the bounding box of a word that has none is a
`KeyError` (`none`). -/
def addFrags (bb? : Option BoundingBox) (textLow : String) :
    List (String × Nat) → List (Nat × Rat) → Option (List (Nat × Rat))
  | [], acc => some acc
  | (frag, idx) :: fs, acc =>
    if strContains textLow frag && !(acc.any (fun p => p.1 == idx)) then
      match bb? with
      | none => none
      | some bb => addFrags bb? textLow fs (acc ++ [(idx, bb.top + bb.height / 2)])
    else addFrags bb? textLow fs acc

/-- First phase: walk the blocks and record, per fragment index, the vertical
centre of the first WORD whose text contains the fragment (insertion order,
like the Python dict `centres`). -/
def collectCentres : List Block → List (Nat × Rat) → Option (List (Nat × Rat))
  | [], acc => some acc
  | w :: ws, acc =>
    if w.blockType == "WORD" then
      match w.text with
      | none => none
      | some t =>
        match addFrags w.geometry (pyLower (pyStrip t)) fragments acc with
        | none => none
        | some acc' => collectCentres ws acc'
    else collectCentres ws acc

/-- Second phase: the first WORD block whose stripped, lowercased text is
exactly "x", "x." or "x," (Python `next(..., None)`); `some none` means the
generator was exhausted without a match. -/
def findX : List Block → Option (Option Block)
  | [] => some none
  | w :: ws =>
    if w.blockType == "WORD" then
      match w.text with
      | none => none
      | some t =>
        if ["x", "x.", "x,"].contains (pyLower (pyStrip t)) then some (some w)
        else findX ws
    else findX ws

/-- Stable insertion of one element into a list sorted ascending by the `Rat`
component (elements already present that compare strictly smaller stay in
front; on ties the inserted element, which comes first in the original list,
goes first). -/
def insertByY (p : Nat × Rat) : List (Nat × Rat) → List (Nat × Rat)
  | [] => [p]
  | q :: t => if q.2 < p.2 then q :: insertByY p t else p :: q :: t

/-- Python `sorted(..., key=lambda p: p[1])`: stable ascending sort by the
vertical centre. -/
def pySorted : List (Nat × Rat) → List (Nat × Rat)
  | [] => []
  | p :: t => insertByY p (pySorted t)

/-- Python builtin `abs` on a rational value. -/
def ratAbs (x : Rat) : Rat := if x < 0 then -x else x

/-- Python `min` tail: keep the current best, replacing it only on a strictly
smaller key (stable min semantics). -/
def minFrom (key : Nat × Rat → Rat) : Nat × Rat → List (Nat × Rat) → Nat × Rat
  | best, [] => best
  | best, p :: t => if key p < key best then minFrom key p t else minFrom key best t

/-- Python `min(l, key=...)`: `none` on the empty list (`ValueError`). -/
def pyMin (key : Nat × Rat → Rat) : List (Nat × Rat) → Option (Nat × Rat)
  | [] => none
  | p :: t => some (minFrom key p t)

/-- Final gender mapping of the resolver (lines 109-115 of the source):
case-insensitive first-letter test on the supplied gender string. -/
def statoForm (gender : String) (idx : Nat) : String :=
  let g := pyLower gender
  if pyStartsWith g "f" then femaleForms.getD idx ""
  else if pyStartsWith g "m" then maleForms.getD idx ""
  else maleForms.getD idx "" ++ " / " ++ femaleForms.getD idx ""

/-- `get_stato_from_vertical_boxes(blocks, bmap, gender)`: detect the civil
status from the four label fragments and the handwritten "x" mark, choosing
the label whose vertical centre is nearest to the mark's centre.  The `bmap`
parameter is unused, exactly as in the source. -/
def get_stato_from_vertical_boxes (blocks : List Block) (bmap : String → Option Block)
    (gender : String) : Option String :=
  match collectCentres blocks [] with
  | none => none
  | some centres =>
    if centres.length < 4 then some statoSentinel
    else
      let ordered := pySorted centres
      match findX blocks with
      | none => none
      | some none => some statoSentinel
      | some (some xb) =>
        match xb.geometry with
        | none => none
        | some bbx =>
          let xc := bbx.top + bbx.height / 2
          match pyMin (fun p => ratAbs (p.2 - xc)) ordered with
          | none => none
          | some best => some (statoForm gender best.1)

-- ── Electronic-seal footer (`extract_seal_footer`) ──────────────────────────
/-- The texts of all LINE blocks, in order
(`[b["Text"] for b in blocks if b["BlockType"] == "LINE"]`); a LINE without
a Text key is a `KeyError`. -/
def lineTexts : List Block → Option (List String)
  | [] => some []
  | b :: t =>
    if b.blockType == "LINE" then
      match b.text with
      | none => none
      | some tx =>
        match lineTexts t with
        | none => none
        | some rest => some (tx :: rest)
    else lineTexts t

/-- Indices of the lines containing the sealed-phrase marker
("vulosur elektronikisht", case-insensitively). -/
def markerIdxs (lines : List String) : List Nat :=
  ((lines.enum).filter (fun p => strContains (pyLower p.2) "vulosur elektronikisht")).map Prod.fst

/-- Does `re.search(r"\d{4}/\d{2}/\d{2}", ...)` match at the head of the list? -/
def dateAt : List Char → Bool
  | c1 :: c2 :: c3 :: c4 :: s1 :: c5 :: c6 :: s2 :: c7 :: c8 :: _ =>
    c1.isDigit && c2.isDigit && c3.isDigit && c4.isDigit && s1 == '/' &&
    c5.isDigit && c6.isDigit && s2 == '/' && c7.isDigit && c8.isDigit
  | _ => false

/-- Does the date pattern match anywhere in the list? -/
def hasDateAux : List Char → Bool
  | [] => false
  | c :: t => dateAt (c :: t) || hasDateAux t

/-- Python `re.search(r"\d{4}/\d{2}/\d{2}", s)` truthiness. -/
def hasDatePattern (s : String) : Bool := hasDateAux s.data

/-- The prefix removal `re.sub(r"^(Date|Datë)\s*:?\s*", "", txt, flags=re.I)`:
if the text starts with "Date"/"Datë" case-insensitively, drop it together
with following whitespace, an optional colon and further whitespace. -/
def stripDateLabelChars : List Char → List Char
  | d :: a :: t :: e :: rest =>
    if lc d = 'd' && lc a = 'a' && lc t = 't' && (lc e = 'e' || lc e = 'ë') then
      match rest.dropWhile Char.isWhitespace with
      | ':' :: r => r.dropWhile Char.isWhitespace
      | r1 => r1
    else d :: a :: t :: e :: rest
  | l => l

/-- Label stripping followed by the final `.strip()` of the source. -/
def stripDateLabel (txt : String) : String := pyStrip ⟨stripDateLabelChars txt.data⟩

/-- Is a character a hexadecimal digit (`[A-Fa-f0-9]`)? -/
def isHexDigitChar (c : Char) : Bool :=
  c.isDigit || ('a' ≤ c && c ≤ 'f') || ('A' ≤ c && c ≤ 'F')

/-- Python `re.fullmatch(r"[A-Fa-f0-9]{30,40}", s)` truthiness: the whole
string is 30 to 40 hexadecimal characters. -/
def isHexLine (s : String) : Bool :=
  decide (30 ≤ s.length) && decide (s.length ≤ 40) && s.data.all isHexDigitChar

/-- One iteration of the scanning loop of `extract_seal_footer` on the line
`raw` with current date line `d` and hash line `h`: grab the date line
(stripping any leading Date/Datë label and prefixing "In data ") if none was
found yet, else grab the hash line if none was found yet. -/
def sealStep (raw d h : String) : String × String :=
  let txt := pyStrip raw
  if d = "" && hasDatePattern txt then ("In data " ++ stripDateLabel txt, h)
  else if h = "" && isHexLine txt then (d, txt)
  else (d, h)

/-- The scanning loop of `extract_seal_footer`: starting from the given lines,
grab the first date line and the first hex line, stopping once both are
found. -/
def sealLoop : List String → String → String → String × String
  | [], d, h => (d, h)
  | raw :: rest, d, h =>
    let dh := sealStep raw d h
    if dh.1 ≠ "" && dh.2 ≠ "" then dh else sealLoop rest dh.1 dh.2

/-- `extract_seal_footer(blocks)`: scan LINE texts for the second occurrence of
the sealed-phrase marker, then from there for a date line and a hash line;
return the four-line footer (the `"\n".join` of the source unrolled) on
success and the empty string otherwise. -/
def extract_seal_footer (blocks : List Block) : Option String :=
  match lineTexts blocks with
  | none => none
  | some lines =>
    match markerIdxs lines with
    | _ :: start :: _ =>
      let dh := sealLoop (lines.drop start) "" ""
      if dh.1 ≠ "" && dh.2 ≠ "" then
        some ("Timbro elettronico della Direzione" ++ "\n" ++
              "Generale dello Stato Civile" ++ "\n" ++ dh.1 ++ "\n" ++ dh.2)
      else some ""
    | _ => some ""

-- ── Place-name exonyms (`EXONYM_RULES`, `map_exonyms`) ──────────────────────
/-- Word characters of the repertoire of these documents: Python `\w`
restricted to ASCII alphanumerics, the underscore and the Albanian letters. -/
def wordChar (c : Char) : Bool :=
  c.isAlphanum || c == '_' || c == 'ë' || c == 'Ë' || c == 'ç' || c == 'Ç'

/-- Case-insensitive match of a whole word against a pattern given as one
character class per position (each class lists the accepted lowercase
characters). -/
def matchWord : List (List Char) → List Char → Bool
  | [], [] => true
  | cls :: ps, c :: cs => cls.contains (lc c) && matchWord ps cs
  | _, _ => false

/-- Fuelled traversal splitting the text into maximal word-character runs and
applying `g` to each run; the fuel is always instantiated with the length of
the list.  This is the semantics of `re.sub(pat, repl, s, flags=re.IGNORECASE)`
for the exonym patterns: each of them is a word-character-only literal (with
one character class) delimited by `\b` on both sides, so a regex match is
exactly a maximal word-character run matching the pattern, and the global
substitution rewrites every such run. -/
def subWordsF (g : List Char → List Char) : Nat → List Char → List Char
  | _, [] => []
  | 0, l => l
  | f + 1, c :: t =>
    if wordChar c then
      g ((c :: t).takeWhile wordChar) ++ subWordsF g f ((c :: t).dropWhile wordChar)
    else c :: subWordsF g f t

/-- Word-wise substitution over a character list. -/
def subWords (g : List Char → List Char) (l : List Char) : List Char :=
  subWordsF g l.length l

/-- The word-level action of one exonym rule: replace a whole word matching
the pattern by the replacement, else leave it. -/
def gw (p : List (List Char)) (r : List Char) (w : List Char) : List Char :=
  if matchWord p w then r else w

/-- One `re.sub` of an exonym rule over a character list. -/
def subRule (p : List (List Char)) (r : List Char) (l : List Char) : List Char :=
  subWords (gw p r) l

/-- Pattern `\bTiran[ëe]\b` (lowercased classes). -/
def tiranPat : List (List Char) := [['t'], ['i'], ['r'], ['a'], ['n'], ['ë', 'e']]

/-- Pattern `\bVlor[ëe]\b`. -/
def vlorPat : List (List Char) := [['v'], ['l'], ['o'], ['r'], ['ë', 'e']]

/-- Pattern `\bDurr[ëe]s\b`. -/
def durrPat : List (List Char) := [['d'], ['u'], ['r'], ['r'], ['ë', 'e'], ['s']]

/-- Pattern `\bShkod[ëe]r\b`. -/
def shkodPat : List (List Char) := [['s'], ['h'], ['k'], ['o'], ['d'], ['ë', 'e'], ['r']]

/-- The fixed ordered Albanian-to-Italian exonym rules. -/
def EXONYM_RULES : List (List (List Char) × List Char) :=
  [(tiranPat, "Tirana".data), (vlorPat, "Valona".data),
   (durrPat, "Durazzo".data), (shkodPat, "Scutari".data)]

/-- `map_exonyms(text)`: return empty/absent input unchanged, otherwise apply
the exonym rules in order. -/
def map_exonyms (text : String) : String :=
  if text = "" then text
  else ⟨EXONYM_RULES.foldl (fun acc pr => subRule pr.1 pr.2 acc) text.data⟩

-- ── Table-field extraction (`extract_table_fields`) ─────────────────────────
/-- The `(rowIndex, columnIndex) → text` grid.  Later writes are consed in
front, so the first hit in `gridGet` is the most recent write, matching the
Python dict-of-dicts update semantics. -/
abbrev Grid := List (Nat × Nat × String)

/-- `rows.get(r, {}).get(c, "")`. -/
def gridGet (g : Grid) (r c : Nat) : String :=
  (((g.find? (fun e => e.1 == r && e.2.1 == c)).map (fun e => e.2.2)).getD "")

/-- `rows.setdefault(r, {})[c] = txt` (last write wins). -/
def gridSet (g : Grid) (r c : Nat) (v : String) : Grid := (r, c, v) :: g

/-- The WORD texts reachable from one relationship's id list through the block
map (`for wid in cr.get("Ids", []) for w in (bmap[wid],) if w["BlockType"] ==
"WORD"`): a missing id or a WORD without text is a `KeyError`. -/
def wordsOfIds (bmap : String → Option Block) : List String → Option (List String)
  | [] => some []
  | wid :: t =>
    match bmap wid with
    | none => none
    | some w =>
      match wordsOfIds bmap t with
      | none => none
      | some more =>
        if w.blockType == "WORD" then
          match w.text with
          | none => none
          | some tx => some (tx :: more)
        else some more

/-- All WORD texts of one cell, relationship by relationship. -/
def cellWords (bmap : String → Option Block) : List Relationship → Option (List String)
  | [] => some []
  | cr :: rest =>
    match wordsOfIds bmap cr.ids with
    | none => none
    | some ws =>
      match cellWords bmap rest with
      | none => none
      | some more => some (ws ++ more)

/-- Space-joined, stripped text of a cell. -/
def joinWords (ws : List String) : String := pyStrip (String.intercalate " " ws)

/-- Process the child ids of one CHILD relationship of the table: look each id
up in the block map, keep the CELLs, and write their (space-joined, stripped)
word text into the grid at (RowIndex, ColumnIndex). -/
def processIds (bmap : String → Option Block) : List String → Grid → Option Grid
  | [], g => some g
  | cid :: t, g =>
    match bmap cid with
    | none => none
    | some cell =>
      if cell.blockType == "CELL" then
        match cell.rowIndex with
        | none => none
        | some r =>
          match cell.columnIndex with
          | none => none
          | some c =>
            match cellWords bmap cell.relationships with
            | none => none
            | some ws => processIds bmap t (gridSet g r c (joinWords ws))
      else processIds bmap t g

/-- Build the grid from the table's relationships, skipping non-CHILD ones. -/
def buildGrid (bmap : String → Option Block) : List Relationship → Grid → Option Grid
  | [], g => some g
  | rel :: rest, g =>
    if rel.relType == "CHILD" then
      match processIds bmap rel.ids g with
      | none => none
      | some g' => buildGrid bmap rest g'
    else buildGrid bmap rest g

/-- Occurrences of `Nd` followed by any single character other than a newline
are rewritten to `Ed.`: the source's first replacement is
`re.sub(r"Nd.", "Ed.", ...)` whose unescaped dot matches any non-newline
character. -/
def subNdAux : List Char → List Char
  | 'N' :: 'd' :: c :: rest =>
    if c = '\n' then 'N' :: 'd' :: c :: subNdAux rest
    else 'E' :: 'd' :: '.' :: subNdAux rest
  | c :: rest => c :: subNdAux rest
  | [] => []

/-- The row-9/column-2 cleanup chain of the source (lines 230-240): the `Nd.`
regex replacement followed by the literal replacements, in source order. -/
def residenzaClean (s : String) : String :=
  pyReplace (pyReplace (pyReplace (pyReplace (pyReplace (pyReplace (pyReplace (pyReplace
    ⟨subNdAux s.data⟩
    "H." "Int.") "Ap." "App.") "Njësia" "Sezione") "Administrative" "Amministrativa")
    "NJËSIA" "Sezione") "ADMINISTRATIVE" "Amministrativa") "NJESIA" "Sezione") "Njesia" "Sezione"

/-- Update the value of a key of the record (Python `result[k] = v` for a key
the dict literal already contains). -/
def recordSet (rec : List (String × String)) (k v : String) : List (String × String) :=
  rec.map (fun p => if p.1 == k then (p.1, v) else p)

/-- `result.get(k, dflt)`. -/
def recordGetD (rec : List (String × String)) (k dflt : String) : String :=
  ((rec.find? (fun p => p.1 == k)).map (fun p => p.2)).getD dflt

/-- `extract_table_fields(blocks, bmap)`: locate the first TABLE block, build
the cell grid, clean up the residence cell, map the sex code, assemble the
record, then normalize places and citizenship. -/
def extract_table_fields (blocks : List Block) (bmap : String → Option Block) :
    Option (List (String × String)) :=
  match blocks.find? (fun b => b.blockType == "TABLE") with
  | none => some []
  | some tbl =>
    match buildGrid bmap tbl.relationships [] with
    | none => none
    | some g0 =>
      let resRaw := gridGet g0 9 2
      let g := if resRaw ≠ "" then gridSet g0 9 2 (residenzaClean resRaw) else g0
      let sessoRaw := pyUpper (pyStrip (gridGet g 10 2))
      let sessoVal :=
        if sessoRaw = "M" then "Maschio"
        else if sessoRaw = "F" then "Femminile"
        else sessoRaw
      match get_stato_from_vertical_boxes blocks bmap sessoVal with
      | none => none
      | some stato =>
        match extract_seal_footer blocks with
        | none => none
        | some sealTxt =>
          let result : List (String × String) :=
            [("Nome", gridGet g 2 2), ("Cognome", gridGet g 3 2),
             ("Numero personale", gridGet g 4 2), ("Nome del padre", gridGet g 5 2),
             ("Nome della madre", gridGet g 6 2), ("Data di nascita", gridGet g 7 2),
             ("Luogo di nascita", gridGet g 8 2), ("Residenza", gridGet g 9 2),
             ("Sesso", sessoVal), ("Stato Civile", stato),
             ("Cittadinanza", gridGet g 12 2),
             ("Cognome prima del matrimonio", gridGet g 13 2),
             ("Data del rilascio", gridGet g 14 2), ("ElectronicSeal", sealTxt)]
          let result := recordSet result "Luogo di nascita"
            (map_exonyms (recordGetD result "Luogo di nascita" ""))
          let result := recordSet result "Residenza"
            (map_exonyms (recordGetD result "Residenza" ""))
          let citt := pyUpper (pyStrip (recordGetD result "Cittadinanza" ""))
          let result :=
            if citt = "ALB" || citt = "ALBANIA" || citt = "SHQIPTARE" || citt = "SHQIPTAR"
            then recordSet result "Cittadinanza" "Albanese" else result
          some result

-- ── Header extraction (`extract_comune_sezione`) ────────────────────────────
/-- Cased letters of the repertoire (for Python `str.title`). -/
def isCasedChar (c : Char) : Bool :=
  c.isAlpha || c == 'ë' || c == 'Ë' || c == 'ç' || c == 'Ç'

/-- Python `str.title` worker: the Bool says whether the previous character
was cased. -/
def pyTitleAux : Bool → List Char → List Char
  | _, [] => []
  | prev, c :: t =>
    if isCasedChar c then (if prev then lc c else uc c) :: pyTitleAux true t
    else c :: pyTitleAux false t

/-- Python `str.title`. -/
def pyTitle (s : String) : String := ⟨pyTitleAux false s.data⟩

/-- Characters of the capture class `[A-ZÇËA-Za-zë\-]` of the Bashkia regex. -/
def bashkiaCaptureChar (c : Char) : Bool :=
  ('A' ≤ c && c ≤ 'Z') || ('a' ≤ c && c ≤ 'z') || c == 'Ç' || c == 'Ë' || c == 'ë' || c == '-'

/-- Try to match `Bashkia\s+([A-ZÇËA-Za-zë\-]+)` at the head of the list,
returning the greedy capture on success. -/
def matchBashkiaAt : List Char → Option (List Char)
  | 'B' :: 'a' :: 's' :: 'h' :: 'k' :: 'i' :: 'a' :: rest =>
    let ws := rest.takeWhile Char.isWhitespace
    let cap := (rest.dropWhile Char.isWhitespace).takeWhile bashkiaCaptureChar
    if !ws.isEmpty && !cap.isEmpty then some cap else none
  | _ => none

/-- `re.search(r"Bashkia\s+([A-ZÇËA-Za-zë\-]+)", l)`: leftmost match wins. -/
def searchBashkia : List Char → Option (List Char)
  | [] => none
  | c :: t =>
    match matchBashkiaAt (c :: t) with
    | some cap => some cap
    | none => searchBashkia t

/-- Everything after the first occurrence of `pat`
(`l.split(pat, 1)[1]`, callable only when `pat` occurs). -/
def afterFirst (pat : List Char) : List Char → List Char
  | [] => []
  | c :: t => if pat.isPrefixOf (c :: t) then (c :: t).drop pat.length else afterFirst pat t

/-- The line loop of `extract_comune_sezione`: per line, update the comune
from the Bashkia regex and the sezione from the administrative-unit suffix
(fetching the following line when the suffix is just a number marker);
later lines overwrite earlier results. -/
def csLoop (lines : List String) : List (Nat × String) → String → String → String × String
  | [], comune, sezione => (comune, sezione)
  | (i, l) :: rest, comune, sezione =>
    let comune' :=
      if strContains l "Bashkia" then
        match searchBashkia l.data with
        | some cap => pyTitle ⟨cap⟩
        | none => comune
      else comune
    let sezione' :=
      if strContains l "Njësia Administrative" || strContains l "Njesia Administrative" then
        let suf := pyStrip ⟨afterFirst "Administrative".data l.data⟩
        let suf :=
          if pyLower suf = "nr." || pyLower suf = "nr" then suf ++ " " ++ lines.getD (i + 1) ""
          else suf
        pyTitle suf
      else sezione
    csLoop lines rest comune' sezione'

/-- `extract_comune_sezione(blocks)`: scan LINE texts for the municipality and
the administrative-section suffix, then normalize both through the exonyms. -/
def extract_comune_sezione (blocks : List Block) : Option (String × String) :=
  match lineTexts blocks with
  | none => none
  | some lines =>
    let cs := csLoop lines lines.enum "" ""
    some (map_exonyms cs.1, map_exonyms cs.2)

/-- The fourteen record keys, in the order of the dict literal of the source. -/
def recordKeys : List String :=
  ["Nome", "Cognome", "Numero personale", "Nome del padre", "Nome della madre",
   "Data di nascita", "Luogo di nascita", "Residenza", "Sesso", "Stato Civile",
   "Cittadinanza", "Cognome prima del matrimonio", "Data del rilascio", "ElectronicSeal"]

-- ── C6: the sex-code mapping ────────────────────────────────────────────────
/-- The table block of the sex-mapping counterexample. -/
def sessoTable : Block :=
  { id := "t", blockType := "TABLE", relationships := [{ relType := "CHILD", ids := ["c1"] }] }

/-- The CELL at row 10, column 2 holding the sex cell. -/
def sessoCell : Block :=
  { id := "c1", blockType := "CELL", rowIndex := some 10, columnIndex := some 2,
    relationships := [{ relType := "CHILD", ids := ["wab"] }] }

/-- The WORD of the sex cell, with the lowercase text "ab". -/
def sessoWord : Block := { id := "wab", blockType := "WORD", text := some "ab" }

/-- Block list whose table has the single cell (10, 2) = "ab". -/
def sessoCexBlocks : List Block := [sessoTable, sessoCell, sessoWord]

/-- A block list holding a single childless TABLE block. -/
def tableOnlyBlocks : List Block := [{ id := "t", blockType := "TABLE" }]

/-- The record extracted from `tableOnlyBlocks`: every field falls back to the
empty string except the civil status, which falls back to the sentinel. -/
def emptyTableRec : List (String × String) :=
  [("Nome", ""), ("Cognome", ""), ("Numero personale", ""), ("Nome del padre", ""),
   ("Nome della madre", ""), ("Data di nascita", ""), ("Luogo di nascita", ""),
   ("Residenza", ""), ("Sesso", ""), ("Stato Civile", statoSentinel),
   ("Cittadinanza", ""), ("Cognome prima del matrimonio", ""),
   ("Data del rilascio", ""), ("ElectronicSeal", "")]

/-- The record extracted from `sessoCexBlocks`. -/
def sessoCexRec : List (String × String) :=
  [("Nome", ""), ("Cognome", ""), ("Numero personale", ""), ("Nome del padre", ""),
   ("Nome della madre", ""), ("Data di nascita", ""), ("Luogo di nascita", ""),
   ("Residenza", ""), ("Sesso", "AB"), ("Stato Civile", statoSentinel),
   ("Cittadinanza", ""), ("Cognome prima del matrimonio", ""),
   ("Data del rilascio", ""), ("ElectronicSeal", "")]

-- ── C7: the residence replacement chain ─────────────────────────────────────
/-- The table block of the residence counterexample. -/
def resTable : Block :=
  { id := "t", blockType := "TABLE", relationships := [{ relType := "CHILD", ids := ["rc"] }] }

/-- The CELL at row 9, column 2 holding the residence cell. -/
def resCell : Block :=
  { id := "rc", blockType := "CELL", rowIndex := some 9, columnIndex := some 2,
    relationships := [{ relType := "CHILD", ids := ["rw"] }] }

/-- The WORD of the residence cell: "Nd5 Rr" contains no literal "Nd.". -/
def resWord : Block := { id := "rw", blockType := "WORD", text := some "Nd5 Rr" }

/-- Block list whose table has the single cell (9, 2) = "Nd5 Rr". -/
def resCexBlocks : List Block := [resTable, resCell, resWord]

/-- The record extracted from `resCexBlocks`. -/
def resCexRec : List (String × String) :=
  [("Nome", ""), ("Cognome", ""), ("Numero personale", ""), ("Nome del padre", ""),
   ("Nome della madre", ""), ("Data di nascita", ""), ("Luogo di nascita", ""),
   ("Residenza", "Ed. Rr"), ("Sesso", ""), ("Stato Civile", statoSentinel),
   ("Cittadinanza", ""), ("Cognome prima del matrimonio", ""),
   ("Data del rilascio", ""), ("ElectronicSeal", "")]

/-- Label WORD containing the fragment "beqar" (single). -/
def statoWordSingle : Block :=
  { id := "s0", blockType := "WORD", text := some "Beqar",
    geometry := some { top := 1/10, height := 1/50, left := 0, width := 0 } }

/-- Label WORD containing the fragment "martu" (married). -/
def statoWordMarried : Block :=
  { id := "s1", blockType := "WORD", text := some "I martuar",
    geometry := some { top := 2/10, height := 1/50, left := 0, width := 0 } }

/-- Label WORD containing the fragment "shkuror" (divorced). -/
def statoWordDivorced : Block :=
  { id := "s2", blockType := "WORD", text := some "shkurorëzuar",
    geometry := some { top := 3/10, height := 1/50, left := 0, width := 0 } }

/-- Label WORD containing the fragment "vedov" (widowed). -/
def statoWordWidowed : Block :=
  { id := "s3", blockType := "WORD", text := some "Vedov",
    geometry := some { top := 4/10, height := 1/50, left := 0, width := 0 } }

/-- The handwritten mark, row-aligned with the divorced label. -/
def statoMarkWord : Block :=
  { id := "s4", blockType := "WORD", text := some "X",
    geometry := some { top := 3/10, height := 1/50, left := 0, width := 0 } }

/-- Four status labels plus one mark nearest to fragment index 2. -/
def statoExampleBlocks : List Block :=
  [statoWordSingle, statoWordMarried, statoWordDivorced, statoWordWidowed, statoMarkWord]

/-- The centres collected from `statoExampleBlocks`. -/
def statoCentresExample : List (Nat × Rat) :=
  [(0, 11/100), (1, 21/100), (2, 31/100), (3, 41/100)]

/-- The bounding box of the mark in `statoExampleBlocks`. -/
def statoBoxExample : BoundingBox := { top := 3/10, height := 1/50, left := 0, width := 0 }

/-- Divorced label for the tie instance (centre 41/100). -/
def statoTieDivorced : Block :=
  { id := "t2", blockType := "WORD", text := some "shkurorëzuar",
    geometry := some { top := 4/10, height := 1/50, left := 0, width := 0 } }

/-- Widowed label for the tie instance (centre 51/100). -/
def statoTieWidowed : Block :=
  { id := "t3", blockType := "WORD", text := some "Vedov",
    geometry := some { top := 5/10, height := 1/50, left := 0, width := 0 } }

/-- Mark for the tie instance, exactly midway (centre 31/100) between the
married label (centre 21/100) and the divorced label (centre 41/100). -/
def statoTieMark : Block :=
  { id := "t4", blockType := "WORD", text := some "X",
    geometry := some { top := 3/10, height := 1/50, left := 0, width := 0 } }

/-- Tie instance: the mark is equidistant from the married and divorced
labels; the stable minimization must keep the first-encountered candidate in
the Y-sorted centre list (the married label, index 1). -/
def statoTieBlocks : List Block :=
  [statoWordSingle, statoWordMarried, statoTieDivorced, statoTieWidowed, statoTieMark]

/-- The LINE blocks of the seal example: two marker occurrences, a labelled
date line and a 32-character hex line. -/
def sealExampleBlocks : List Block :=
  [{ id := "l0", blockType := "LINE", text := some "Vulosur elektronikisht nga DPGJC" },
   { id := "l1", blockType := "LINE", text := some "middle" },
   { id := "l2", blockType := "LINE", text := some "VULOSUR ELEKTRONIKISHT" },
   { id := "l3", blockType := "LINE", text := some "Date 2023/05/10" },
   { id := "l4", blockType := "LINE", text := some "0123456789abcdef0123456789ABCDEF" }]

/-- The LINE texts of `sealExampleBlocks`. -/
def sealExampleLines : List String :=
  ["Vulosur elektronikisht nga DPGJC", "middle", "VULOSUR ELEKTRONIKISHT",
   "Date 2023/05/10", "0123456789abcdef0123456789ABCDEF"]

/-- The canonical four-line footer extracted from `sealExampleBlocks`. -/
def sealExampleOutput : String :=
  "Timbro elettronico della Direzione" ++ "\n" ++ "Generale dello Stato Civile" ++ "\n" ++
  "In data 2023/05/10" ++ "\n" ++ "0123456789abcdef0123456789ABCDEF"

-- ── C9: totality over well-formed input ─────────────────────────────────────
/-- Well-formedness of one block: a WORD has text and a bounding box, a LINE
has text, a CELL has row and column indices. -/
def BlockWF (b : Block) : Prop :=
  (b.blockType = "WORD" → b.text.isSome ∧ b.geometry.isSome) ∧
  (b.blockType = "LINE" → b.text.isSome) ∧
  (b.blockType = "CELL" → b.rowIndex.isSome ∧ b.columnIndex.isSome)

/-- Well-formed OCR input: every block (in the list and in the block map) is
well-formed and every relationship id resolves in the block map. -/
def WellFormed (blocks : List Block) (bmap : String → Option Block) : Prop :=
  (∀ b ∈ blocks, BlockWF b) ∧
  (∀ i b, bmap i = some b → BlockWF b) ∧
  (∀ b ∈ blocks, ∀ rel ∈ b.relationships, ∀ i ∈ rel.ids, (bmap i).isSome) ∧
  (∀ j b, bmap j = some b → ∀ rel ∈ b.relationships, ∀ i ∈ rel.ids, (bmap i).isSome)

/-- A function mapping non-empty word runs to non-empty word runs. -/
def WordRunMap (g : List Char → List Char) : Prop :=
  ∀ w : List Char, w ≠ [] → w.all wordChar = true → g w ≠ [] ∧ (g w).all wordChar = true

/-- The composite word-level action of the four exonym rules. -/
def exonymG (w : List Char) : List Char :=
  gw shkodPat "Scutari".data
    (gw durrPat "Durazzo".data
      (gw vlorPat "Valona".data
        (gw tiranPat "Tirana".data w)))

-- ── Theorems ───────────────────────────────────────────────────────────────

-- ── Record-shape lemmas ─────────────────────────────────────────────────────
/-- Updating a key's value does not change the key list of a record. -/
theorem recordSet_keys (rec : List (String × String)) (k v : String) :
    (recordSet rec k v).map Prod.fst = rec.map Prod.fst := by
  unfold recordSet
  rw [List.map_map]
  apply List.map_congr_left
  intro p _
  cases p with
  | mk a b =>
    simp only [Function.comp_apply]
    split <;> rfl

/-- C2.  For every well-formed block list containing no block of type TABLE,
`extract_table_fields` returns the empty mapping. -/
theorem extract_fields_no_table_empty (blocks : List Block) (bmap : String → Option Block)
    (h : ∀ b ∈ blocks, b.blockType ≠ "TABLE") :
    extract_table_fields blocks bmap = some [] := by
  unfold extract_table_fields
  have hf : blocks.find? (fun b => b.blockType == "TABLE") = none := by
    rw [List.find?_eq_none]
    intro b hb
    simpa using h b hb
  rw [hf]

/-- Witness for C2 at a concrete input: a block list with a single WORD block
has no TABLE block and extracts to the empty record. -/
theorem extract_fields_no_table_empty_witness :
    (∀ b ∈ [({ id := "w", blockType := "WORD" } : Block)], b.blockType ≠ "TABLE") ∧
    extract_table_fields [({ id := "w", blockType := "WORD" } : Block)] (fun _ => none) = some [] := by
  refine ⟨by decide, extract_fields_no_table_empty _ _ (by decide)⟩

/-- C1, counterexample.  On a block list with no TABLE block the produced
record is empty, so the key "Nome" is absent: the claim's invariant does not
hold for every OCR block list. -/
theorem extract_fields_missing_key_cex :
    (extract_table_fields [] (fun _ => none)).map
      (fun rec => (rec.find? (fun p => p.1 == "Nome")).isSome) = some false := by
  decide

/-- C1, amended.  For every block list containing a TABLE block, any record
produced by `extract_table_fields` has exactly the fourteen named keys, in
order, each mapped to a string: a key is never absent. -/
theorem extract_fields_keys_complete (blocks : List Block) (bmap : String → Option Block)
    (rec : List (String × String)) (b : Block) (hb : b ∈ blocks)
    (htbl : b.blockType = "TABLE")
    (h : extract_table_fields blocks bmap = some rec) :
    rec.map Prod.fst = recordKeys := by
  unfold extract_table_fields at h
  split at h
  · rename_i hfind
    rw [List.find?_eq_none] at hfind
    exact absurd (by simpa using htbl) (hfind b hb)
  · rename_i tbl hfind
    dsimp only at h
    repeat' split at h
    all_goals first
      | exact Option.noConfusion h
      | (injection h with h; subst h; simp only [recordSet_keys]; rfl)

/-- Reading a grid cell other than the one just written is unchanged. -/
theorem gridGet_gridSet_ne (g : Grid) (r c r' c' : Nat) (v : String)
    (h : ¬(r = r' ∧ c = c')) : gridGet (gridSet g r c v) r' c' = gridGet g r' c' := by
  unfold gridGet gridSet
  rw [List.find?_cons_of_neg]
  by_cases h1 : r = r' <;> by_cases h2 : c = c' <;> simp_all

/-- Reading the grid cell just written returns the written value. -/
theorem gridGet_gridSet_self (g : Grid) (r c : Nat) (v : String) :
    gridGet (gridSet g r c v) r c = v := by
  unfold gridGet gridSet
  rw [List.find?_cons_of_pos] <;> simp

/-- C6, counterexample.  The cell at row 10, column 2 extracts to "ab", yet
the Sesso field of the record is "AB": a value other than "M"/"F"/"" is not
passed through verbatim (the code strips and uppercases it first). -/
theorem sesso_verbatim_cex :
    buildGrid (mkBmap sessoCexBlocks) sessoTable.relationships [] = some [(10, 2, "ab")] ∧
    (extract_table_fields sessoCexBlocks (mkBmap sessoCexBlocks)).map
      (fun rec => recordGetD rec "Sesso" "") = some "AB" ∧
    "AB" ≠ "ab" := by
  refine ⟨by decide, by decide, by decide⟩

/-- C6, amended.  The Sesso field maps the trimmed, uppercased text of the
cell at row 10, column 2: "M" yields "Maschio", "F" yields "Femminile", the
empty string yields the empty string, and any other trimmed-uppercased value
is passed through in that trimmed, uppercased form. -/
theorem sesso_mapping (blocks : List Block) (bmap : String → Option Block)
    (rec : List (String × String)) (tbl : Block) (g0 : Grid)
    (hfind : blocks.find? (fun b => b.blockType == "TABLE") = some tbl)
    (hg : buildGrid bmap tbl.relationships [] = some g0)
    (h : extract_table_fields blocks bmap = some rec) :
    (pyUpper (pyStrip (gridGet g0 10 2)) = "M" → recordGetD rec "Sesso" "" = "Maschio") ∧
    (pyUpper (pyStrip (gridGet g0 10 2)) = "F" → recordGetD rec "Sesso" "" = "Femminile") ∧
    (pyUpper (pyStrip (gridGet g0 10 2)) = "" → recordGetD rec "Sesso" "" = "") ∧
    (pyUpper (pyStrip (gridGet g0 10 2)) ≠ "M" → pyUpper (pyStrip (gridGet g0 10 2)) ≠ "F" →
      recordGetD rec "Sesso" "" = pyUpper (pyStrip (gridGet g0 10 2))) := by
  unfold extract_table_fields at h
  rw [hfind] at h
  dsimp only at h
  rw [hg] at h
  have hten : ∀ v, gridGet (gridSet g0 9 2 v) 10 2 = gridGet g0 10 2 := by
    intro v
    exact gridGet_gridSet_ne g0 9 2 10 2 v (by simp)
  dsimp only at h
  repeat' split at h
  all_goals first
    | exact Option.noConfusion h
    | (injection h with h; subst h;
       simp_all +decide [recordGetD, recordSet, List.find?, hten])

/-- Witness for the amended C1 at a concrete input with a TABLE block. -/
theorem extract_fields_keys_complete_witness :
    (({ id := "t", blockType := "TABLE" } : Block) ∈ tableOnlyBlocks ∧
     extract_table_fields tableOnlyBlocks (fun _ => none) = some emptyTableRec) ∧
    emptyTableRec.map Prod.fst = recordKeys :=
  ⟨⟨by decide, by decide⟩,
   extract_fields_keys_complete tableOnlyBlocks (fun _ => none) emptyTableRec
     { id := "t", blockType := "TABLE" } (by decide) rfl (by decide)⟩

/-- Witness for the amended C6 at the concrete cell text "ab". -/
theorem sesso_mapping_witness :
    (extract_table_fields sessoCexBlocks (mkBmap sessoCexBlocks) = some sessoCexRec) ∧
    recordGetD sessoCexRec "Sesso" "" = pyUpper (pyStrip (gridGet [(10, 2, "ab")] 10 2)) :=
  ⟨by decide,
   (sesso_mapping sessoCexBlocks (mkBmap sessoCexBlocks) sessoCexRec sessoTable
       [(10, 2, "ab")] (by decide) (by decide) (by decide)).2.2.2
     (by decide) (by decide)⟩

/-- C7, counterexample.  The residence cell "Nd5 Rr" contains no literal
occurrence of "Nd.", yet the Residenza value is "Ed. Rr": the first
replacement is a regex whose unescaped dot matches any character, not a
literal substring replacement.  Moreover the case variant "NJesia" of the
administrative-unit word is left untouched, so not all case-insensitive
variants are mapped to the canonical phrase. -/
theorem residenza_literal_cex :
    buildGrid (mkBmap resCexBlocks) resTable.relationships [] = some [(9, 2, "Nd5 Rr")] ∧
    (extract_table_fields resCexBlocks (mkBmap resCexBlocks)).map
      (fun rec => recordGetD rec "Residenza" "") = some "Ed. Rr" ∧
    strContains "Nd5 Rr" "Nd." = false ∧
    residenzaClean "NJesia Administrative" = "NJesia Amministrativa" := by
  refine ⟨by decide, by decide, by decide, by decide⟩

/-- C7, amended.  For every table with a non-empty cell at row 9, column 2,
the Residenza value is the cell text transformed by the fixed chain
`residenzaClean` (a regex replacement rewriting "Nd" plus any single
non-newline character to "Ed.", then the literal replacements "H."→"Int.",
"Ap."→"App.", and the four spellings Njësia/NJËSIA/NJESIA/Njesia→"Sezione"
and two spellings Administrative/ADMINISTRATIVE→"Amministrativa"), followed
by the exonym normalization. -/
theorem residenza_replacement_chain (blocks : List Block) (bmap : String → Option Block)
    (rec : List (String × String)) (tbl : Block) (g0 : Grid)
    (hfind : blocks.find? (fun b => b.blockType == "TABLE") = some tbl)
    (hg : buildGrid bmap tbl.relationships [] = some g0)
    (h : extract_table_fields blocks bmap = some rec)
    (hne : gridGet g0 9 2 ≠ "") :
    recordGetD rec "Residenza" "" = map_exonyms (residenzaClean (gridGet g0 9 2)) := by
  unfold extract_table_fields at h
  rw [hfind] at h
  dsimp only at h
  rw [hg] at h
  dsimp only at h
  repeat' split at h
  all_goals first
    | exact Option.noConfusion h
    | (injection h with h; subst h;
       simp_all +decide [recordGetD, recordSet, List.find?, gridGet_gridSet_self])

/-- Witness for the amended C7 at the concrete cell text "Nd5 Rr". -/
theorem residenza_replacement_chain_witness :
    (extract_table_fields resCexBlocks (mkBmap resCexBlocks) = some resCexRec ∧
     gridGet [(9, 2, "Nd5 Rr")] 9 2 ≠ "") ∧
    recordGetD resCexRec "Residenza" "" =
      map_exonyms (residenzaClean (gridGet [(9, 2, "Nd5 Rr")] 9 2)) :=
  ⟨⟨by decide, by decide⟩,
   residenza_replacement_chain resCexBlocks (mkBmap resCexBlocks) resCexRec resTable
     [(9, 2, "Nd5 Rr")] (by decide) (by decide) (by decide) (by decide)⟩

-- ── Resolver lemmas ─────────────────────────────────────────────────────────
/-- Every index recorded by `addFrags` comes from the fragment list. -/
theorem addFrags_idx_lt (bb? : Option BoundingBox) (textLow : String) :
    ∀ (fr : List (String × Nat)) (acc acc' : List (Nat × Rat)),
      (∀ q ∈ fr, q.2 < 4) → (∀ p ∈ acc, p.1 < 4) →
      addFrags bb? textLow fr acc = some acc' → ∀ p ∈ acc', p.1 < 4 := by
  intro fr
  induction fr with
  | nil =>
    intro acc acc' _ hacc h
    injection h with h
    subst h
    exact hacc
  | cons q fs ih =>
    intro acc acc' hfr hacc h
    cases q with
    | mk frag idx =>
      simp only [addFrags] at h
      split at h
      · split at h
        · exact Option.noConfusion h
        · refine ih _ _ (fun q hq => hfr q (List.mem_cons_of_mem _ hq)) ?_ h
          intro p hp
          rcases List.mem_append.mp hp with hp | hp
          · exact hacc p hp
          · have : p = (idx, _) := List.mem_singleton.mp hp
            subst this
            exact hfr (frag, idx) (List.mem_cons_self _ _)
      · exact ih _ _ (fun q hq => hfr q (List.mem_cons_of_mem _ hq)) hacc h

/-- Every index recorded by `collectCentres` is a fragment index, hence < 4. -/
theorem collectCentres_idx_lt :
    ∀ (blocks : List Block) (acc cs : List (Nat × Rat)),
      (∀ p ∈ acc, p.1 < 4) → collectCentres blocks acc = some cs →
      ∀ p ∈ cs, p.1 < 4 := by
  intro blocks
  induction blocks with
  | nil =>
    intro acc cs hacc h
    injection h with h
    subst h
    exact hacc
  | cons w ws ih =>
    intro acc cs hacc h
    simp only [collectCentres] at h
    split at h
    · split at h
      · exact Option.noConfusion h
      · split at h
        · exact Option.noConfusion h
        · rename_i acc' hadd
          exact ih _ _ (addFrags_idx_lt _ _ fragments acc acc' (by decide) hacc hadd) h
    · exact ih _ _ hacc h

/-- Membership through stable insertion. -/
theorem mem_insertByY (a p : Nat × Rat) :
    ∀ l : List (Nat × Rat), a ∈ insertByY p l ↔ a = p ∨ a ∈ l := by
  intro l
  induction l with
  | nil => simp [insertByY]
  | cons q t ih =>
    simp only [insertByY]
    split <;> simp [ih] <;> tauto

/-- Membership through the stable sort. -/
theorem mem_pySorted (a : Nat × Rat) :
    ∀ l : List (Nat × Rat), a ∈ pySorted l ↔ a ∈ l := by
  intro l
  induction l with
  | nil => simp [pySorted]
  | cons p t ih => simp [pySorted, mem_insertByY, ih]

/-- The running Python `min` never exceeds its starting value. -/
theorem minFrom_le_init (key : Nat × Rat → Rat) :
    ∀ (l : List (Nat × Rat)) (b : Nat × Rat), key (minFrom key b l) ≤ key b := by
  intro l
  induction l with
  | nil => intro b; simp [minFrom]
  | cons p t ih =>
    intro b
    simp only [minFrom]
    split
    · exact le_trans (ih p) (le_of_lt (by assumption))
    · exact ih b

/-- The running Python `min` is a lower bound of the traversed list. -/
theorem minFrom_le_mem (key : Nat × Rat → Rat) :
    ∀ (l : List (Nat × Rat)) (b q : Nat × Rat), q ∈ l → key (minFrom key b l) ≤ key q := by
  intro l
  induction l with
  | nil => intro b q hq; cases hq
  | cons p t ih =>
    intro b q hq
    rcases List.mem_cons.mp hq with hq | hq
    · subst hq
      simp only [minFrom]
      split
      · exact minFrom_le_init key t q
      · exact le_trans (minFrom_le_init key t b) (le_of_not_lt (by assumption))
    · simp only [minFrom]
      split <;> exact ih _ q hq

/-- The running Python `min` returns the start or a member of the list. -/
theorem minFrom_mem (key : Nat × Rat → Rat) :
    ∀ (l : List (Nat × Rat)) (b : Nat × Rat), minFrom key b l = b ∨ minFrom key b l ∈ l := by
  intro l
  induction l with
  | nil => intro b; left; rfl
  | cons p t ih =>
    intro b
    simp only [minFrom]
    split
    · rcases ih p with h | h
      · right; rw [h]; exact List.mem_cons_self ..
      · right; exact List.mem_cons_of_mem _ h
    · rcases ih b with h | h
      · left; exact h
      · right; exact List.mem_cons_of_mem _ h

/-- `pyMin` returns a member of the list. -/
theorem pyMin_mem (key : Nat × Rat → Rat) (l : List (Nat × Rat)) (m : Nat × Rat)
    (h : pyMin key l = some m) : m ∈ l := by
  cases l with
  | nil => exact Option.noConfusion h
  | cons p t =>
    injection h with h
    subst h
    rcases minFrom_mem key t p with h | h
    · rw [h]; exact List.mem_cons_self ..
    · exact List.mem_cons_of_mem _ h

/-- `pyMin` returns a minimizer of the key over the list. -/
theorem pyMin_le (key : Nat × Rat → Rat) (l : List (Nat × Rat)) (m : Nat × Rat)
    (h : pyMin key l = some m) : ∀ q ∈ l, key m ≤ key q := by
  cases l with
  | nil => exact Option.noConfusion h
  | cons p t =>
    injection h with h
    subst h
    intro q hq
    rcases List.mem_cons.mp hq with hq | hq
    · subst hq; exact minFrom_le_init key t q
    · exact minFrom_le_mem key t p q hq

/-- The running Python `min` is stable: its result is the first element of
`b :: l` attaining the minimum key.  The scanned list splits around the
result, every element of the prefix has a strictly larger key (the running
best is replaced only on a strictly smaller key), and the result's key is a
global minimum. -/
theorem minFrom_split (key : Nat × Rat → Rat) (t : List (Nat × Rat)) :
    ∀ best : Nat × Rat,
      ∃ l1 l2, best :: t = l1 ++ minFrom key best t :: l2 ∧
        (∀ q ∈ l1, key (minFrom key best t) < key q) ∧
        (∀ q ∈ best :: t, key (minFrom key best t) ≤ key q) := by
  induction t with
  | nil =>
    intro best
    exact ⟨[], [], rfl, by simp, by simp [minFrom]⟩
  | cons p t ih =>
    intro best
    by_cases hlt : key p < key best
    · obtain ⟨l1, l2, heq, hstrict, hmin⟩ := ih p
      have hm : minFrom key best (p :: t) = minFrom key p t := by
        simp only [minFrom, if_pos hlt]
      rw [hm]
      have hle : key (minFrom key p t) ≤ key p := hmin p (List.mem_cons_self _ _)
      refine ⟨best :: l1, l2, ?_, ?_, ?_⟩
      · rw [List.cons_append, ← heq]
      · intro q hq
        rcases List.mem_cons.mp hq with hq | hq
        · subst hq; exact lt_of_le_of_lt hle hlt
        · exact hstrict q hq
      · intro q hq
        rcases List.mem_cons.mp hq with hq | hq
        · subst hq; exact le_of_lt (lt_of_le_of_lt hle hlt)
        · exact hmin q hq
    · obtain ⟨l1, l2, heq, hstrict, hmin⟩ := ih best
      have hm : minFrom key best (p :: t) = minFrom key best t := by
        simp only [minFrom, if_neg hlt]
      rw [hm]
      have hple : key best ≤ key p := le_of_not_lt hlt
      cases l1 with
      | nil =>
        simp only [List.nil_append] at heq
        have hb : minFrom key best t = best := by
          injection heq with h1 h2
          exact h1.symm
        rw [hb]
        refine ⟨[], p :: t, rfl, by simp, ?_⟩
        intro q hq
        rcases List.mem_cons.mp hq with hq | hq
        · subst hq; exact le_refl _
        · rcases List.mem_cons.mp hq with hq | hq
          · subst hq; exact hple
          · have h3 := hmin q (List.mem_cons_of_mem _ hq)
            rwa [hb] at h3
      | cons a l1 =>
        rw [List.cons_append] at heq
        injection heq with h1 h2
        subst h1
        have hstrictbest : key (minFrom key best t) < key best :=
          hstrict best (List.mem_cons_self _ _)
        refine ⟨best :: p :: l1, l2, ?_, ?_, ?_⟩
        · rw [List.cons_append, List.cons_append, ← h2]
        · intro q hq
          rcases List.mem_cons.mp hq with hq | hq
          · subst hq; exact hstrictbest
          · rcases List.mem_cons.mp hq with hq | hq
            · subst hq; exact lt_of_lt_of_le hstrictbest hple
            · exact hstrict q (List.mem_cons_of_mem _ hq)
        · intro q hq
          rcases List.mem_cons.mp hq with hq | hq
          · rw [hq]; exact hmin best (List.mem_cons_self _ _)
          · rcases List.mem_cons.mp hq with hq | hq
            · rw [hq]; exact le_trans (hmin best (List.mem_cons_self _ _)) hple
            · exact hmin q (List.mem_cons_of_mem _ hq)

/-- `pyMin` returns the first-encountered minimizer, Python's stable `min`
tie-breaking: the list splits around the result and every element before it
has a strictly larger key. -/
theorem pyMin_first (key : Nat × Rat → Rat) (l : List (Nat × Rat)) (m : Nat × Rat)
    (h : pyMin key l = some m) :
    ∃ l1 l2, l = l1 ++ m :: l2 ∧ (∀ q ∈ l1, key m < key q) ∧ ∀ q ∈ l, key m ≤ key q := by
  cases l with
  | nil => exact Option.noConfusion h
  | cons p t =>
    injection h with h
    subst h
    exact minFrom_split key t p

/-- A gendered form with a valid index is never the sentinel. -/
theorem statoForm_ne_sentinel (gender : String) (i : Nat) (hi : i < 4) :
    statoForm gender i ≠ statoSentinel := by
  have hc : i = 0 ∨ i = 1 ∨ i = 2 ∨ i = 3 := by omega
  by_cases hf : pyStartsWith (pyLower gender) "f" <;>
    by_cases hm : pyStartsWith (pyLower gender) "m" <;>
      rcases hc with h | h | h | h <;> subst h <;>
        simp [statoForm, hf, hm] <;> decide

/-- C10.  For every block list and every gender string, a successful run of
`get_stato_from_vertical_boxes` returns one of exactly thirteen strings: the
sentinel, the four masculine forms, the four feminine forms, or the four
combined forms pairing the masculine and feminine form of the same index. -/
theorem stato_range (blocks : List Block) (bmap : String → Option Block)
    (gender res : String)
    (h : get_stato_from_vertical_boxes blocks bmap gender = some res) :
    res ∈ ([statoSentinel, "Celibe", "Coniugato", "Divorziato", "Vedovo",
            "Nubile", "Coniugata", "Divorziata", "Vedova",
            "Celibe / Nubile", "Coniugato / Coniugata", "Divorziato / Divorziata",
            "Vedovo / Vedova"] : List String) := by
  unfold get_stato_from_vertical_boxes at h
  split at h
  · exact Option.noConfusion h
  · rename_i centres hc
    split at h
    · injection h with h; subst h; simp
    · rename_i hlen
      split at h
      · exact Option.noConfusion h
      · injection h with h; subst h; simp
      · rename_i xb hx
        split at h
        · exact Option.noConfusion h
        · rename_i bbx hbb
          dsimp only at h
          split at h
          · exact Option.noConfusion h
          · rename_i best hmin
            injection h with h
            subst h
            have hmem : best ∈ centres :=
              (mem_pySorted best centres).mp (pyMin_mem _ _ _ hmin)
            have hlt : best.1 < 4 :=
              collectCentres_idx_lt blocks [] centres (by simp) hc best hmem
            have hcase : best.1 = 0 ∨ best.1 = 1 ∨ best.1 = 2 ∨ best.1 = 3 := by omega
            by_cases hf : pyStartsWith (pyLower gender) "f" <;>
              by_cases hm : pyStartsWith (pyLower gender) "m" <;>
                rcases hcase with hx4 | hx4 | hx4 | hx4 <;> rw [hx4] at * <;>
                  simp +decide [statoForm, maleForms, femaleForms, hf, hm]

/-- C3.  A successful run of the resolver returns the fixed unresolved
sentinel if and only if fewer than all four status fragments were located
or no mark WORD block exists; in particular, with fewer than four fragments
the sentinel is returned regardless of the mark. -/
theorem stato_sentinel_iff (blocks : List Block) (bmap : String → Option Block)
    (gender res : String) (cs : List (Nat × Rat))
    (h : get_stato_from_vertical_boxes blocks bmap gender = some res)
    (hcs : collectCentres blocks [] = some cs) :
    (res = statoSentinel ↔ (cs.length < 4 ∨ findX blocks = some none)) := by
  unfold get_stato_from_vertical_boxes at h
  split at h
  · exact Option.noConfusion h
  · rename_i centres hc
    rw [hcs] at hc
    injection hc with hc
    subst hc
    split at h
    · injection h with h
      subst h
      simp_all
    · rename_i hlen
      split at h
      · exact Option.noConfusion h
      · rename_i hx
        injection h with h
        subst h
        simp_all
      · rename_i xb hx
        split at h
        · exact Option.noConfusion h
        · rename_i bbx hbb
          dsimp only at h
          split at h
          · exact Option.noConfusion h
          · rename_i best hmin
            injection h with h
            subst h
            have hmem : best ∈ cs :=
              (mem_pySorted best cs).mp (pyMin_mem _ _ _ hmin)
            have hlt : best.1 < 4 :=
              collectCentres_idx_lt blocks [] cs (by simp) hcs best hmem
            constructor
            · intro hsent
              exact absurd hsent (statoForm_ne_sentinel gender best.1 hlt)
            · intro hor
              rcases hor with hor | hor
              · exact absurd hor hlen
              · rw [hx] at hor
                injection hor with hor
                exact Option.noConfusion hor

/-- C4.  When all four fragments are found and a mark exists, the resolver
selects the label whose vertical centre minimizes the absolute difference to
the mark's vertical centre, ties broken by the first-encountered candidate
in the stable minimization over the Y-sorted centre list: the sorted list
splits around the selected candidate, every candidate preceding it is
strictly farther from the mark, every candidate is at least as far, and the
result is the gendered Italian form of the selected index (feminine for a
gender starting with "f", masculine for "m", the combined form otherwise,
per `statoForm`).  These conditions determine the selection uniquely, also
on tie inputs. -/
theorem stato_nearest_selection (blocks : List Block) (bmap : String → Option Block)
    (gender res : String) (cs : List (Nat × Rat)) (xb : Block) (bbx : BoundingBox)
    (h : get_stato_from_vertical_boxes blocks bmap gender = some res)
    (hcs : collectCentres blocks [] = some cs)
    (hlen : ¬cs.length < 4)
    (hx : findX blocks = some (some xb))
    (hbb : xb.geometry = some bbx) :
    ∃ best l1 l2, pySorted cs = l1 ++ best :: l2 ∧
      (∀ p ∈ l1, ratAbs (best.2 - (bbx.top + bbx.height / 2)) <
        ratAbs (p.2 - (bbx.top + bbx.height / 2))) ∧
      (∀ p ∈ cs, ratAbs (best.2 - (bbx.top + bbx.height / 2)) ≤
        ratAbs (p.2 - (bbx.top + bbx.height / 2))) ∧
      res = statoForm gender best.1 := by
  unfold get_stato_from_vertical_boxes at h
  split at h
  · exact Option.noConfusion h
  · rename_i centres hc
    rw [hcs] at hc
    injection hc with hc
    subst hc
    split at h
    · exact absurd (by assumption) hlen
    · split at h
      · exact Option.noConfusion h
      · rename_i hx'
        rw [hx] at hx'
        injection hx' with hx'
        exact Option.noConfusion hx'
      · rename_i xb' hx'
        rw [hx] at hx'
        injection hx' with hx'
        injection hx' with hx'
        subst hx'
        split at h
        · rw [hbb] at *; simp_all
        · rename_i bbx' hbb'
          rw [hbb] at hbb'
          injection hbb' with hbb'
          subst hbb'
          dsimp only at h
          split at h
          · exact Option.noConfusion h
          · rename_i best hmin
            injection h with h
            subst h
            obtain ⟨l1, l2, heq, hstrict, hminall⟩ := pyMin_first _ _ _ hmin
            refine ⟨best, l1, l2, heq, hstrict, ?_, rfl⟩
            intro p hp
            exact hminall p ((mem_pySorted p cs).mpr hp)

/-- Witness for C10: the empty block list resolves to the sentinel, which is
in the thirteen-string range. -/
theorem stato_range_witness :
    get_stato_from_vertical_boxes [] (fun _ => none) "" = some statoSentinel ∧
    statoSentinel ∈ ([statoSentinel, "Celibe", "Coniugato", "Divorziato", "Vedovo",
      "Nubile", "Coniugata", "Divorziata", "Vedova", "Celibe / Nubile",
      "Coniugato / Coniugata", "Divorziato / Divorziata", "Vedovo / Vedova"] : List String) :=
  ⟨by decide, stato_range [] (fun _ => none) "" statoSentinel (by decide)⟩

/-- Witness for C3: on the empty block list no fragment is found, and the
sentinel equivalence holds. -/
theorem stato_sentinel_iff_witness :
    (get_stato_from_vertical_boxes [] (fun _ => none) "" = some statoSentinel ∧
     collectCentres [] [] = some []) ∧
    (statoSentinel = statoSentinel ↔
      (([] : List (Nat × Rat)).length < 4 ∨ findX [] = some none)) :=
  ⟨⟨by decide, rfl⟩,
   stato_sentinel_iff [] (fun _ => none) "" statoSentinel [] (by decide) rfl⟩

/-- Witness for C4 at the spec's instance: mark closest to fragment index 2
(divorced) and gender "Femminile" resolve to "Divorziata"; additionally, on
the tie instance (mark equidistant from the married and divorced labels) the
resolver returns "Coniugata", the first-encountered candidate in the
Y-sorted centre list, per the stable tie-breaking. -/
theorem stato_nearest_selection_witness :
    (get_stato_from_vertical_boxes statoExampleBlocks (mkBmap statoExampleBlocks)
        "Femminile" = some "Divorziata" ∧
     collectCentres statoExampleBlocks [] = some statoCentresExample ∧
     ¬statoCentresExample.length < 4 ∧
     findX statoExampleBlocks = some (some statoMarkWord) ∧
     statoMarkWord.geometry = some statoBoxExample) ∧
    (∃ best l1 l2, pySorted statoCentresExample = l1 ++ best :: l2 ∧
      (∀ p ∈ l1,
        ratAbs (best.2 - (statoBoxExample.top + statoBoxExample.height / 2)) <
          ratAbs (p.2 - (statoBoxExample.top + statoBoxExample.height / 2))) ∧
      (∀ p ∈ statoCentresExample,
        ratAbs (best.2 - (statoBoxExample.top + statoBoxExample.height / 2)) ≤
          ratAbs (p.2 - (statoBoxExample.top + statoBoxExample.height / 2))) ∧
      "Divorziata" = statoForm "Femminile" best.1) ∧
    get_stato_from_vertical_boxes statoTieBlocks (mkBmap statoTieBlocks)
        "Femminile" = some "Coniugata" :=
  ⟨⟨by with_unfolding_all decide, by with_unfolding_all decide, by decide,
    by with_unfolding_all decide, rfl⟩,
   stato_nearest_selection statoExampleBlocks (mkBmap statoExampleBlocks) "Femminile"
     "Divorziata" statoCentresExample statoMarkWord statoBoxExample
     (by with_unfolding_all decide) (by with_unfolding_all decide) (by decide)
     (by with_unfolding_all decide) rfl,
   by with_unfolding_all decide⟩

-- ── Seal-footer lemmas ──────────────────────────────────────────────────────
/-- A string starting with the non-empty "In data " label is non-empty. -/
theorem in_data_ne_empty (r : String) : ("In data " ++ r) ≠ "" := by
  intro h
  have hlen := congrArg String.length h
  rw [String.length_append] at hlen
  have h8 : "In data ".length = 8 := rfl
  have h0 : ("" : String).length = 0 := rfl
  omega

/-- A hex line has at least 30 characters, so it is non-empty. -/
theorem isHexLine_ne_empty (s : String) (h : isHexLine s = true) : s ≠ "" := by
  intro he
  subst he
  exact absurd h (by decide)

/-- A head match of the date pattern contains a slash. -/
theorem dateAt_slash (l : List Char) (h : dateAt l = true) : '/' ∈ l := by
  unfold dateAt at h
  split at h
  · simp only [Bool.and_eq_true, beq_iff_eq] at h
    obtain ⟨⟨⟨⟨⟨⟨⟨⟨⟨h1, h2⟩, h3⟩, h4⟩, h5⟩, h6⟩, h7⟩, h8⟩, h9⟩, h10⟩ := h
    subst h5
    simp
  · exact absurd h (by simp)

/-- Any match of the date pattern contains a slash. -/
theorem hasDateAux_slash (l : List Char) (h : hasDateAux l = true) : '/' ∈ l := by
  induction l with
  | nil => exact absurd h (by decide)
  | cons c t ih =>
    simp only [hasDateAux, Bool.or_eq_true] at h
    rcases h with h | h
    · exact dateAt_slash _ h
    · exact List.mem_cons_of_mem _ (ih h)

/-- A line matching the date pattern is never entirely hexadecimal: the date
pattern forces a slash, which is not a hex digit. -/
theorem hasDate_not_hex (t : String) (h : hasDatePattern t = true) : isHexLine t = false := by
  have hs : '/' ∈ t.data := hasDateAux_slash _ h
  cases hhex : isHexLine t with
  | false => rfl
  | true =>
    exfalso
    simp only [isHexLine, Bool.and_eq_true, List.all_eq_true] at hhex
    exact absurd (hhex.2 '/' hs) (by decide)

/-- The date component of one scanning step. -/
theorem sealStep_fst (raw d h : String) :
    (sealStep raw d h).1 =
      if d = "" && hasDatePattern (pyStrip raw)
      then "In data " ++ stripDateLabel (pyStrip raw) else d := by
  simp only [sealStep]
  split
  · rfl
  · split <;> rfl

/-- The hash component of one scanning step. -/
theorem sealStep_snd (raw d h : String) :
    (sealStep raw d h).2 =
      if d = "" && hasDatePattern (pyStrip raw) then h
      else if h = "" && isHexLine (pyStrip raw) then pyStrip raw else h := by
  simp only [sealStep]
  split
  · rfl
  · split <;> rfl

/-- A step never clears a date line already found. -/
theorem sealStep_fst_of_ne (raw d h : String) (hd : d ≠ "") : (sealStep raw d h).1 = d := by
  rw [sealStep_fst]
  simp [hd]

/-- A step never clears a hash line already found. -/
theorem sealStep_snd_of_ne (raw d h : String) (hh : h ≠ "") : (sealStep raw d h).2 = h := by
  rw [sealStep_snd]
  split
  · rfl
  · simp [hh]

/-- Once the date line is set, the scanning loop never changes it. -/
theorem sealLoop_d_stable :
    ∀ (ls : List String) (d h : String), d ≠ "" → (sealLoop ls d h).1 = d := by
  intro ls
  induction ls with
  | nil => intro d h _; rfl
  | cons raw rest ih =>
    intro d h hd
    rw [sealLoop]
    split
    · exact sealStep_fst_of_ne raw d h hd
    · rw [sealStep_fst_of_ne raw d h hd]
      exact ih d _ hd

/-- Once the hash line is set, the scanning loop never changes it. -/
theorem sealLoop_h_stable :
    ∀ (ls : List String) (d h : String), h ≠ "" → (sealLoop ls d h).2 = h := by
  intro ls
  induction ls with
  | nil => intro d h _; rfl
  | cons raw rest ih =>
    intro d h hh
    rw [sealLoop]
    split
    · exact sealStep_snd_of_ne raw d h hh
    · rw [sealStep_snd_of_ne raw d h hh]
      exact ih _ h hh

/-- Unfolding the scanning loop one line: the early break changes nothing,
because a loop started with both components set returns them unchanged. -/
theorem sealLoop_cons_eq (raw : String) (rest : List String) (d h : String) :
    sealLoop (raw :: rest) d h =
      sealLoop rest (sealStep raw d h).1 (sealStep raw d h).2 := by
  rw [sealLoop]
  split
  · rename_i hbrk
    simp only [Bool.and_eq_true, decide_eq_true_eq] at hbrk
    refine Prod.ext ?_ ?_
    · exact (sealLoop_d_stable rest _ _ hbrk.1).symm
    · exact (sealLoop_h_stable rest _ _ hbrk.2).symm
  · rfl

/-- A step produces a non-empty date line exactly when one was already found
or the current line matches the date pattern. -/
theorem sealStep_fst_ne (raw d h : String) :
    (sealStep raw d h).1 ≠ "" ↔ (d ≠ "" ∨ hasDatePattern (pyStrip raw) = true) := by
  rw [sealStep_fst]
  by_cases hd : d = "" <;> by_cases hdate : hasDatePattern (pyStrip raw) = true <;>
    simp [hd, hdate, in_data_ne_empty]

/-- A step produces a non-empty hash line exactly when one was already found
or the current line is entirely hexadecimal (a date line is never grabbed as
a hash line since the two patterns are disjoint). -/
theorem sealStep_snd_ne (raw d h : String) :
    (sealStep raw d h).2 ≠ "" ↔ (h ≠ "" ∨ isHexLine (pyStrip raw) = true) := by
  rw [sealStep_snd]
  by_cases hd : d = "" <;> by_cases hdate : hasDatePattern (pyStrip raw) = true <;>
    by_cases hh : h = "" <;> by_cases hhex : isHexLine (pyStrip raw) = true <;>
      simp [hd, hdate, hh, hhex, isHexLine_ne_empty]
  all_goals rw [hasDate_not_hex _ hdate] at hhex
  all_goals exact absurd hhex (by decide)

/-- The date line of the scanning loop is set exactly when it was set before
or some scanned line matches the date pattern. -/
theorem sealLoop_d_ne :
    ∀ (ls : List String) (d h : String),
      (sealLoop ls d h).1 ≠ "" ↔
        (d ≠ "" ∨ ∃ raw ∈ ls, hasDatePattern (pyStrip raw) = true) := by
  intro ls
  induction ls with
  | nil => intro d h; simp [sealLoop]
  | cons raw rest ih =>
    intro d h
    rw [sealLoop_cons_eq, ih, sealStep_fst_ne]
    constructor
    · intro hc
      rcases hc with (hc | hc) | hc
      · exact Or.inl hc
      · exact Or.inr ⟨raw, List.mem_cons_self .., hc⟩
      · obtain ⟨r, hr, hp⟩ := hc
        exact Or.inr ⟨r, List.mem_cons_of_mem _ hr, hp⟩
    · intro hc
      rcases hc with hc | ⟨r, hr, hp⟩
      · exact Or.inl (Or.inl hc)
      · rcases List.mem_cons.mp hr with hr | hr
        · subst hr; exact Or.inl (Or.inr hp)
        · exact Or.inr ⟨r, hr, hp⟩

/-- The hash line of the scanning loop is set exactly when it was set before
or some scanned line is entirely hexadecimal. -/
theorem sealLoop_h_ne :
    ∀ (ls : List String) (d h : String),
      (sealLoop ls d h).2 ≠ "" ↔
        (h ≠ "" ∨ ∃ raw ∈ ls, isHexLine (pyStrip raw) = true) := by
  intro ls
  induction ls with
  | nil => intro d h; simp [sealLoop]
  | cons raw rest ih =>
    intro d h
    rw [sealLoop_cons_eq, ih, sealStep_snd_ne]
    constructor
    · intro hc
      rcases hc with (hc | hc) | hc
      · exact Or.inl hc
      · exact Or.inr ⟨raw, List.mem_cons_self .., hc⟩
      · obtain ⟨r, hr, hp⟩ := hc
        exact Or.inr ⟨r, List.mem_cons_of_mem _ hr, hp⟩
    · intro hc
      rcases hc with hc | ⟨r, hr, hp⟩
      · exact Or.inl (Or.inl hc)
      · rcases List.mem_cons.mp hr with hr | hr
        · subst hr; exact Or.inl (Or.inr hp)
        · exact Or.inr ⟨r, hr, hp⟩

/-- The date line of the scanning loop is its start value or carries the
"In data " prefix. -/
theorem sealLoop_d_shape :
    ∀ (ls : List String) (d h : String),
      (sealLoop ls d h).1 = d ∨ ∃ r, (sealLoop ls d h).1 = "In data " ++ r := by
  intro ls
  induction ls with
  | nil => intro d h; left; rfl
  | cons raw rest ih =>
    intro d h
    rw [sealLoop_cons_eq]
    rcases ih (sealStep raw d h).1 (sealStep raw d h).2 with hc | hc
    · rw [hc, sealStep_fst]
      split
      · right; exact ⟨stripDateLabel (pyStrip raw), rfl⟩
      · left; rfl
    · right; exact hc

/-- The hash line of the scanning loop is its start value or is entirely
hexadecimal. -/
theorem sealLoop_h_shape :
    ∀ (ls : List String) (d h : String),
      (sealLoop ls d h).2 = h ∨ isHexLine (sealLoop ls d h).2 = true := by
  intro ls
  induction ls with
  | nil => intro d h; left; rfl
  | cons raw rest ih =>
    intro d h
    rw [sealLoop_cons_eq]
    rcases ih (sealStep raw d h).1 (sealStep raw d h).2 with hc | hc
    · rw [hc, sealStep_snd]
      split
      · left; rfl
      · split
        · rename_i hhex
          simp only [Bool.and_eq_true, decide_eq_true_eq] at hhex
          right; exact hhex.2
        · left; rfl
    · right; exact hc

/-- The four-line footer output is never the empty string. -/
theorem seal_join_ne_empty (d h : String) :
    ("Timbro elettronico della Direzione" ++ "\n" ++
     "Generale dello Stato Civile" ++ "\n" ++ d ++ "\n" ++ h) ≠ "" := by
  intro hEq
  have hlen := congrArg String.length hEq
  simp only [String.length_append] at hlen
  have ha : ("Timbro elettronico della Direzione").length = 34 := rfl
  have hb : ("Generale dello Stato Civile").length = 27 := rfl
  have hc : ("\n" : String).length = 1 := rfl
  have hz : ("" : String).length = 0 := rfl
  omega

/-- C5.  A successful run of `extract_seal_footer` returns a non-empty result
exactly when the sealed-phrase marker occurs at least twice among the LINE
texts and, from the second occurrence onward, some line matches the date
pattern and some line is entirely a 30-40 character hexadecimal string; the
non-empty result is exactly the four-line block: the two fixed Italian header
lines, an "In data " date line and the hex line.  In every other case the
result is the empty string: no partial seal text is ever produced. -/
theorem seal_footer_structure (blocks : List Block) (lines : List String) (s : String)
    (h1 : lineTexts blocks = some lines)
    (h2 : extract_seal_footer blocks = some s) :
    (s ≠ "" ↔ ((markerIdxs lines).length ≥ 2 ∧
      (∃ raw ∈ lines.drop ((markerIdxs lines).getD 1 0), hasDatePattern (pyStrip raw) = true) ∧
      (∃ raw ∈ lines.drop ((markerIdxs lines).getD 1 0), isHexLine (pyStrip raw) = true))) ∧
    (s ≠ "" → ∃ dd hh, s = "Timbro elettronico della Direzione" ++ "\n" ++
        "Generale dello Stato Civile" ++ "\n" ++ ("In data " ++ dd) ++ "\n" ++ hh ∧
      isHexLine hh = true) := by
  unfold extract_seal_footer at h2
  split at h2
  · exact Option.noConfusion h2
  · rename_i lines' hlt
    rw [h1] at hlt
    injection hlt with hlt
    subst hlt
    split at h2
    · rename_i m0 m1 rest' hm
      have hgd : (markerIdxs lines).getD 1 0 = m1 := by rw [hm]; rfl
      dsimp only at h2
      split at h2
      · rename_i hbrk
        simp only [Bool.and_eq_true, decide_eq_true_eq] at hbrk
        injection h2 with h2
        subst h2
        obtain ⟨hd, hh⟩ := hbrk
        constructor
        · constructor
          · intro _
            refine ⟨by rw [hm]; simp, ?_, ?_⟩
            · rcases (sealLoop_d_ne (lines.drop m1) "" "").mp hd with hc | hc
              · exact absurd rfl hc
              · rw [hgd]; exact hc
            · rcases (sealLoop_h_ne (lines.drop m1) "" "").mp hh with hc | hc
              · exact absurd rfl hc
              · rw [hgd]; exact hc
          · intro _
            exact seal_join_ne_empty _ _
        · intro _
          rcases sealLoop_d_shape (lines.drop m1) "" "" with hds | ⟨dd, hds⟩
          · exact absurd hds (by simpa using hd)
          · rcases sealLoop_h_shape (lines.drop m1) "" "" with hhs | hhs
            · exact absurd hhs (by simpa using hh)
            · exact ⟨dd, (sealLoop (lines.drop m1) "" "").2, by rw [hds], hhs⟩
      · rename_i hbrk
        injection h2 with h2
        subst h2
        refine ⟨⟨fun hc => absurd rfl hc, ?_⟩, fun hc => absurd rfl hc⟩
        intro ⟨_, hdate, hhex⟩
        rw [hgd] at hdate hhex
        have hd1 : (sealLoop (lines.drop m1) "" "").1 ≠ "" :=
          (sealLoop_d_ne (lines.drop m1) "" "").mpr (Or.inr hdate)
        have hh1 : (sealLoop (lines.drop m1) "" "").2 ≠ "" :=
          (sealLoop_h_ne (lines.drop m1) "" "").mpr (Or.inr hhex)
        have hcond : ((decide ((sealLoop (lines.drop m1) "" "").1 ≠ "") &&
            decide ((sealLoop (lines.drop m1) "" "").2 ≠ "")) = true) := by
          simp [hd1, hh1]
        exact (hbrk hcond).elim
    · rename_i hnomatch
      injection h2 with h2
      subst h2
      refine ⟨⟨fun hc => absurd rfl hc, ?_⟩, fun hc => absurd rfl hc⟩
      intro ⟨hlen2, _, _⟩
      rcases hms : markerIdxs lines with _ | ⟨a, _ | ⟨b, t⟩⟩
      · rw [hms] at hlen2; simp at hlen2
      · rw [hms] at hlen2; simp at hlen2
      · exact (hnomatch a b t hms).elim

/-- Witness for C5 at the spec's instance: two marker occurrences, the date
line "2023/05/10" and a 32-character hex line yield the canonical four-line
block with "In data 2023/05/10" as the third line. -/
theorem seal_footer_structure_witness :
    (lineTexts sealExampleBlocks = some sealExampleLines ∧
     extract_seal_footer sealExampleBlocks = some sealExampleOutput) ∧
    ((sealExampleOutput ≠ "" ↔ ((markerIdxs sealExampleLines).length ≥ 2 ∧
      (∃ raw ∈ sealExampleLines.drop ((markerIdxs sealExampleLines).getD 1 0),
        hasDatePattern (pyStrip raw) = true) ∧
      (∃ raw ∈ sealExampleLines.drop ((markerIdxs sealExampleLines).getD 1 0),
        isHexLine (pyStrip raw) = true))) ∧
    (sealExampleOutput ≠ "" → ∃ dd hh,
      sealExampleOutput = "Timbro elettronico della Direzione" ++ "\n" ++
        "Generale dello Stato Civile" ++ "\n" ++ ("In data " ++ dd) ++ "\n" ++ hh ∧
      isHexLine hh = true)) :=
  ⟨⟨by decide, by decide⟩,
   seal_footer_structure sealExampleBlocks sealExampleLines sealExampleOutput
     (by decide) (by decide)⟩

/-- LINE-text collection never fails when every LINE block has text. -/
theorem lineTexts_isSome (blocks : List Block)
    (h : ∀ b ∈ blocks, b.blockType = "LINE" → b.text.isSome) :
    (lineTexts blocks).isSome := by
  induction blocks with
  | nil => simp [lineTexts]
  | cons b t ih =>
    have ih' := ih (fun b hb hl => h b (List.mem_cons_of_mem _ hb) hl)
    simp only [lineTexts]
    split
    · rename_i hbt
      have hx := h b (List.mem_cons_self ..) (by simpa using hbt)
      cases htx : b.text with
      | none => simp [htx] at hx
      | some tx =>
        cases hlt : lineTexts t with
        | none => rw [hlt] at ih'; simp at ih'
        | some rest => simp [htx, hlt]
    · exact ih'

/-- The fragment loop never fails when the word has a bounding box. -/
theorem addFrags_isSome (bb : BoundingBox) (tl : String) :
    ∀ (fr : List (String × Nat)) (acc : List (Nat × Rat)),
      (addFrags (some bb) tl fr acc).isSome := by
  intro fr
  induction fr with
  | nil => intro acc; simp [addFrags]
  | cons q fs ih =>
    intro acc
    cases q with
    | mk frag idx =>
      simp only [addFrags]
      split
      · exact ih _
      · exact ih _

/-- Centre collection never fails when every WORD has text and geometry. -/
theorem collectCentres_isSome (blocks : List Block)
    (h : ∀ b ∈ blocks, b.blockType = "WORD" → b.text.isSome ∧ b.geometry.isSome) :
    ∀ acc, (collectCentres blocks acc).isSome := by
  induction blocks with
  | nil => intro acc; simp [collectCentres]
  | cons w ws ih =>
    intro acc
    have ih' := ih (fun b hb hw => h b (List.mem_cons_of_mem _ hb) hw)
    simp only [collectCentres]
    split
    · rename_i hw
      have hx := h w (List.mem_cons_self ..) (by simpa using hw)
      cases htx : w.text with
      | none => rw [htx] at hx; simp at hx
      | some tx =>
        cases hgeo : w.geometry with
        | none => rw [hgeo] at hx; simp at hx
        | some bb =>
          cases ha : addFrags (some bb) (pyLower (pyStrip tx)) fragments acc with
          | none =>
            have := addFrags_isSome bb (pyLower (pyStrip tx)) fragments acc
            rw [ha] at this
            simp at this
          | some acc2 => simp only [ha]; exact ih' acc2
    · exact ih' acc

/-- The mark search never fails when every WORD has text. -/
theorem findX_isSome (blocks : List Block)
    (h : ∀ b ∈ blocks, b.blockType = "WORD" → b.text.isSome) :
    (findX blocks).isSome := by
  induction blocks with
  | nil => simp [findX]
  | cons w ws ih =>
    have ih' := ih (fun b hb hw => h b (List.mem_cons_of_mem _ hb) hw)
    simp only [findX]
    split
    · rename_i hw
      have hx := h w (List.mem_cons_self ..) (by simpa using hw)
      cases htx : w.text with
      | none => rw [htx] at hx; simp at hx
      | some tx =>
        show (if List.contains ["x", "x.", "x,"] (pyLower (pyStrip tx)) = true
              then some (some w) else findX ws).isSome = true
        split
        · simp
        · exact ih'
    · exact ih'

/-- A found mark is a WORD block of the list. -/
theorem findX_mem (blocks : List Block) (xb : Block)
    (h : findX blocks = some (some xb)) : xb ∈ blocks ∧ xb.blockType = "WORD" := by
  induction blocks with
  | nil =>
    injection h with h
    exact Option.noConfusion h
  | cons w ws ih =>
    simp only [findX] at h
    split at h
    · rename_i hw
      split at h
      · exact Option.noConfusion h
      · split at h
        · injection h with h
          injection h with h
          subst h
          exact ⟨List.mem_cons_self .., by simpa using hw⟩
        · have := ih h
          exact ⟨List.mem_cons_of_mem _ this.1, this.2⟩
    · have := ih h
      exact ⟨List.mem_cons_of_mem _ this.1, this.2⟩

/-- Stable insertion grows the length by one. -/
theorem length_insertByY (p : Nat × Rat) :
    ∀ l : List (Nat × Rat), (insertByY p l).length = l.length + 1 := by
  intro l
  induction l with
  | nil => rfl
  | cons q t ih =>
    simp only [insertByY]
    split
    · simp [ih]
    · simp

/-- The stable sort preserves the length. -/
theorem length_pySorted : ∀ l : List (Nat × Rat), (pySorted l).length = l.length := by
  intro l
  induction l with
  | nil => rfl
  | cons p t ih => simp [pySorted, length_insertByY, ih]

/-- The civil-status resolver never fails when every WORD block has text and
geometry. -/
theorem get_stato_isSome (blocks : List Block) (bmap : String → Option Block)
    (gender : String)
    (h : ∀ b ∈ blocks, b.blockType = "WORD" → b.text.isSome ∧ b.geometry.isSome) :
    (get_stato_from_vertical_boxes blocks bmap gender).isSome := by
  unfold get_stato_from_vertical_boxes
  split
  · rename_i hc
    exfalso
    have := collectCentres_isSome blocks h []
    rw [hc] at this
    simp at this
  · rename_i centres hc
    split
    · simp
    · rename_i hlen
      split
      · rename_i hx
        exfalso
        have := findX_isSome blocks (fun b hb hw => (h b hb hw).1)
        rw [hx] at this
        simp at this
      · simp
      · rename_i xb hx
        have hxm := findX_mem blocks xb hx
        have hgeo := (h xb hxm.1 hxm.2).2
        split
        · rename_i hbbx
          rw [hbbx] at hgeo
          simp at hgeo
        · rename_i bbx hbbx
          dsimp only
          split
          · rename_i hmin
            exfalso
            have hlenp := length_pySorted centres
            cases hps : pySorted centres with
            | nil =>
              rw [hps] at hlenp
              simp at hlenp
              omega
            | cons p t =>
              rw [hps] at hmin
              simp [pyMin] at hmin
          · simp

/-- WORD-text resolution of an id list never fails when ids resolve and
resolved WORD blocks have text. -/
theorem wordsOfIds_isSome (bmap : String → Option Block) (ids : List String)
    (hres : ∀ i ∈ ids, (bmap i).isSome)
    (hwf : ∀ i b, bmap i = some b → BlockWF b) :
    (wordsOfIds bmap ids).isSome := by
  induction ids with
  | nil => simp [wordsOfIds]
  | cons wid t ih =>
    have ih' := ih (fun i hi => hres i (List.mem_cons_of_mem _ hi))
    simp only [wordsOfIds]
    cases hb : bmap wid with
    | none =>
      exfalso
      have := hres wid (List.mem_cons_self ..)
      rw [hb] at this
      simp at this
    | some w =>
      cases hrec : wordsOfIds bmap t with
      | none =>
        rw [hrec] at ih'
        simp at ih'
      | some more =>
        show (if (w.blockType == "WORD") = true then
                match w.text with
                | none => none
                | some tx => some (tx :: more)
              else some more).isSome = true
        split
        · rename_i hwd
          have hx := ((hwf wid w hb).1 (by simpa using hwd)).1
          cases htx : w.text with
          | none => rw [htx] at hx; simp at hx
          | some tx => simp
        · simp

/-- Cell-word collection never fails under the same conditions. -/
theorem cellWords_isSome (bmap : String → Option Block) (rels : List Relationship)
    (hres : ∀ rel ∈ rels, ∀ i ∈ rel.ids, (bmap i).isSome)
    (hwf : ∀ i b, bmap i = some b → BlockWF b) :
    (cellWords bmap rels).isSome := by
  induction rels with
  | nil => simp [cellWords]
  | cons cr rest ih =>
    have ih' := ih (fun rel hr => hres rel (List.mem_cons_of_mem _ hr))
    simp only [cellWords]
    cases hw : wordsOfIds bmap cr.ids with
    | none =>
      have := wordsOfIds_isSome bmap cr.ids (hres cr (List.mem_cons_self ..)) hwf
      rw [hw] at this
      simp at this
    | some ws =>
      cases hrec : cellWords bmap rest with
      | none => rw [hrec] at ih'; simp at ih'
      | some more =>
        show (some (ws ++ more)).isSome = true
        simp

/-- Grid construction from one relationship's child ids never fails on
well-formed input. -/
theorem processIds_isSome (bmap : String → Option Block) (cids : List String)
    (hres : ∀ i ∈ cids, (bmap i).isSome)
    (hwf : ∀ i b, bmap i = some b → BlockWF b)
    (hres2 : ∀ j b, bmap j = some b → ∀ rel ∈ b.relationships, ∀ i ∈ rel.ids, (bmap i).isSome) :
    ∀ g, (processIds bmap cids g).isSome := by
  induction cids with
  | nil => intro g; simp [processIds]
  | cons cid t ih =>
    intro g
    have ih' := ih (fun i hi => hres i (List.mem_cons_of_mem _ hi))
    simp only [processIds]
    cases hb : bmap cid with
    | none =>
      exfalso
      have := hres cid (List.mem_cons_self ..)
      rw [hb] at this
      simp at this
    | some cell =>
      show (if (cell.blockType == "CELL") = true then
              match cell.rowIndex with
              | none => none
              | some r =>
                match cell.columnIndex with
                | none => none
                | some c =>
                  match cellWords bmap cell.relationships with
                  | none => none
                  | some ws => processIds bmap t (gridSet g r c (joinWords ws))
            else processIds bmap t g).isSome = true
      split
      · rename_i hcell
        have hcwf := (hwf cid cell hb).2.2 (by simpa using hcell)
        cases hri : cell.rowIndex with
        | none => rw [hri] at hcwf; simp at hcwf
        | some r =>
          cases hci : cell.columnIndex with
          | none => rw [hci] at hcwf; simp at hcwf
          | some c =>
            cases hcw : cellWords bmap cell.relationships with
            | none =>
              have := cellWords_isSome bmap cell.relationships (hres2 cid cell hb) hwf
              rw [hcw] at this
              simp at this
            | some ws => exact ih' (gridSet g r c (joinWords ws))
      · exact ih' g

/-- Grid construction from the table's relationships never fails on
well-formed input. -/
theorem buildGrid_isSome (bmap : String → Option Block) (rels : List Relationship)
    (hres : ∀ rel ∈ rels, ∀ i ∈ rel.ids, (bmap i).isSome)
    (hwf : ∀ i b, bmap i = some b → BlockWF b)
    (hres2 : ∀ j b, bmap j = some b → ∀ rel ∈ b.relationships, ∀ i ∈ rel.ids, (bmap i).isSome) :
    ∀ g, (buildGrid bmap rels g).isSome := by
  induction rels with
  | nil => intro g; simp [buildGrid]
  | cons rel rest ih =>
    intro g
    have ih' := ih (fun r hr => hres r (List.mem_cons_of_mem _ hr))
    simp only [buildGrid]
    split
    · cases hp : processIds bmap rel.ids g with
      | none =>
        have := processIds_isSome bmap rel.ids (hres rel (List.mem_cons_self ..)) hwf hres2 g
        rw [hp] at this
        simp at this
      | some g' => exact ih' g'
    · exact ih' g

/-- The seal extractor never fails when every LINE block has text. -/
theorem extract_seal_footer_isSome (blocks : List Block)
    (h : ∀ b ∈ blocks, b.blockType = "LINE" → b.text.isSome) :
    (extract_seal_footer blocks).isSome := by
  unfold extract_seal_footer
  split
  · rename_i hlt
    exfalso
    have := lineTexts_isSome blocks h
    rw [hlt] at this
    simp at this
  · split
    · dsimp only
      split <;> simp
    · simp

/-- The header extractor never fails when every LINE block has text. -/
theorem extract_comune_sezione_isSome (blocks : List Block)
    (h : ∀ b ∈ blocks, b.blockType = "LINE" → b.text.isSome) :
    (extract_comune_sezione blocks).isSome := by
  unfold extract_comune_sezione
  split
  · rename_i hlt
    exfalso
    have := lineTexts_isSome blocks h
    rw [hlt] at this
    simp at this
  · simp

/-- The table extractor never fails on well-formed input. -/
theorem extract_table_fields_isSome (blocks : List Block) (bmap : String → Option Block)
    (h : WellFormed blocks bmap) :
    (extract_table_fields blocks bmap).isSome := by
  obtain ⟨hwb, hwm, hr1, hr2⟩ := h
  have hstato : ∀ gender, get_stato_from_vertical_boxes blocks bmap gender ≠ none := by
    intro gender hnone
    have := get_stato_isSome blocks bmap gender (fun b hb hw => (hwb b hb).1 hw)
    rw [hnone] at this
    simp at this
  unfold extract_table_fields
  split
  · simp
  · rename_i tbl hfind
    have htbl : tbl ∈ blocks := List.mem_of_find?_eq_some hfind
    split
    · rename_i hg
      exfalso
      have := buildGrid_isSome bmap tbl.relationships (hr1 tbl htbl) hwm hr2 []
      rw [hg] at this
      simp at this
    · rename_i g0 hg
      dsimp only
      split
      · rename_i hst
        exact absurd hst (hstato _)
      · rename_i stato hst
        split
        · rename_i hseal
          exfalso
          have := extract_seal_footer_isSome blocks (fun b hb hl => (hwb b hb).2.1 hl)
          rw [hseal] at this
          simp at this
        · simp

/-- C9.  On well-formed OCR input (every relationship id resolves in the
block map, every CELL has row and column indices, every WORD and LINE has
text, every WORD has a bounding box), the three extraction functions are
total: they never raise, degrading instead to empty-string or sentinel
values. -/
theorem extraction_total_on_wellformed (blocks : List Block)
    (bmap : String → Option Block) (h : WellFormed blocks bmap) :
    (extract_table_fields blocks bmap).isSome ∧
    (extract_comune_sezione blocks).isSome ∧
    (∀ gender, (get_stato_from_vertical_boxes blocks bmap gender).isSome) :=
  ⟨extract_table_fields_isSome blocks bmap h,
   extract_comune_sezione_isSome blocks (fun b hb hl => (h.1 b hb).2.1 hl),
   fun gender => get_stato_isSome blocks bmap gender (fun b hb hw => (h.1 b hb).1 hw)⟩

/-- Witness for C9 on a concrete well-formed input: a single childless TABLE
block with an empty block map. -/
theorem extraction_total_on_wellformed_witness :
    WellFormed tableOnlyBlocks (fun _ => none) ∧
    ((extract_table_fields tableOnlyBlocks (fun _ => none)).isSome ∧
     (extract_comune_sezione tableOnlyBlocks).isSome ∧
     (∀ gender, (get_stato_from_vertical_boxes tableOnlyBlocks (fun _ => none) gender).isSome)) := by
  have hwf : WellFormed tableOnlyBlocks (fun _ => none) := by
    refine ⟨?_, ?_, ?_, ?_⟩
    · intro b hb
      simp only [tableOnlyBlocks, List.mem_singleton] at hb
      subst hb
      refine ⟨?_, ?_, ?_⟩ <;> intro hbt <;> simp at hbt
    · intro i b hb
      simp at hb
    · intro b hb rel hrel
      simp only [tableOnlyBlocks, List.mem_singleton] at hb
      subst hb
      simp at hrel
    · intro j b hb
      simp at hb
  exact ⟨hwf, extraction_total_on_wellformed tableOnlyBlocks (fun _ => none) hwf⟩

-- ── Exonym lemmas (C8) ──────────────────────────────────────────────────────
/-- `subWordsF` on the empty list is empty, for any fuel. -/
theorem subWordsF_nil (g : List Char → List Char) (f : Nat) : subWordsF g f [] = [] := by
  cases f <;> rfl

/-- Dropping a prefix never lengthens a list. -/
theorem dropWhile_length_le (p : Char → Bool) :
    ∀ l : List Char, (l.dropWhile p).length ≤ l.length := by
  intro l
  induction l with
  | nil => simp
  | cons c t ih =>
    rw [List.dropWhile_cons]
    split
    · exact le_trans ih (Nat.le_succ _)
    · exact le_rfl

/-- The fuel of `subWordsF` is irrelevant as long as it covers the length. -/
theorem subWordsF_fuel (g : List Char → List Char) :
    ∀ (f1 f2 : Nat) (l : List Char), l.length ≤ f1 → l.length ≤ f2 →
      subWordsF g f1 l = subWordsF g f2 l := by
  intro f1
  induction f1 with
  | zero =>
    intro f2 l h1 _
    have : l = [] := List.eq_nil_of_length_eq_zero (Nat.le_zero.mp h1)
    subst this
    rw [subWordsF_nil, subWordsF_nil]
  | succ f ih =>
    intro f2 l h1 h2
    cases l with
    | nil => rw [subWordsF_nil, subWordsF_nil]
    | cons c t =>
      cases f2 with
      | zero => simp at h2
      | succ f2' =>
        simp only [subWordsF]
        have hlen1 : t.length ≤ f := by
          simp only [List.length_cons] at h1
          omega
        have hlen2 : t.length ≤ f2' := by
          simp only [List.length_cons] at h2
          omega
        split
        · rename_i hc
          have hdrop : ((c :: t).dropWhile wordChar).length ≤ t.length := by
            rw [List.dropWhile_cons]
            simp only [hc, if_true]
            exact dropWhile_length_le _ _
          rw [ih f2' _ (le_trans hdrop hlen1) (le_trans hdrop hlen2)]
        · rw [ih f2' t hlen1 hlen2]

/-- Unfolding `subWords` at a word character: eat the maximal run. -/
theorem subWords_cons_word (g : List Char → List Char) (c : Char) (t : List Char)
    (h : wordChar c = true) :
    subWords g (c :: t) =
      g ((c :: t).takeWhile wordChar) ++ subWords g ((c :: t).dropWhile wordChar) := by
  show subWordsF g (t.length + 1) (c :: t) = _
  simp only [subWordsF, h, if_true]
  rw [subWords]
  have hdrop : ((c :: t).dropWhile wordChar).length ≤ t.length := by
    rw [List.dropWhile_cons]
    simp only [h, if_true]
    exact dropWhile_length_le _ _
  rw [subWordsF_fuel g t.length ((c :: t).dropWhile wordChar).length _ hdrop le_rfl]

/-- Unfolding `subWords` at a non-word character: copy it. -/
theorem subWords_cons_not (g : List Char → List Char) (c : Char) (t : List Char)
    (h : wordChar c = false) :
    subWords g (c :: t) = c :: subWords g t := by
  show subWordsF g (t.length + 1) (c :: t) = _
  simp only [subWordsF, h, Bool.false_eq_true, if_false]
  rw [subWords]

/-- Every character kept by `takeWhile` satisfies the predicate. -/
theorem all_takeWhile (p : Char → Bool) : ∀ l : List Char, (l.takeWhile p).all p = true := by
  intro l
  induction l with
  | nil => rfl
  | cons c t ih =>
    rw [List.takeWhile_cons]
    split
    · rename_i hc
      simp [hc, ih]
    · rfl

/-- `takeWhile` runs through a prefix that satisfies the predicate. -/
theorem takeWhile_append_all (p : Char → Bool) :
    ∀ (u v : List Char), u.all p = true → (u ++ v).takeWhile p = u ++ v.takeWhile p := by
  intro u
  induction u with
  | nil => intro v _; rfl
  | cons c u' ih =>
    intro v hall
    simp only [List.all_cons, Bool.and_eq_true] at hall
    simp only [List.cons_append, List.takeWhile_cons, hall.1, if_true]
    rw [ih v hall.2]

/-- `dropWhile` swallows a prefix that satisfies the predicate. -/
theorem dropWhile_append_all (p : Char → Bool) :
    ∀ (u v : List Char), u.all p = true → (u ++ v).dropWhile p = v.dropWhile p := by
  intro u
  induction u with
  | nil => intro v _; rfl
  | cons c u' ih =>
    intro v hall
    simp only [List.all_cons, Bool.and_eq_true] at hall
    simp only [List.cons_append, List.dropWhile_cons, hall.1, if_true]
    exact ih v hall.2

/-- A list whose `takeWhile` is empty is untouched by `dropWhile`. -/
theorem dropWhile_of_takeWhile_nil (p : Char → Bool) (v : List Char)
    (h : v.takeWhile p = []) : v.dropWhile p = v := by
  cases v with
  | nil => rfl
  | cons c t =>
    rw [List.takeWhile_cons] at h
    rw [List.dropWhile_cons]
    split
    · rename_i hc
      rw [if_pos hc] at h
      exact absurd h (by simp)
    · rfl

/-- The head of a `dropWhile` result fails the predicate. -/
theorem takeWhile_dropWhile_nil (p : Char → Bool) :
    ∀ l : List Char, ((l.dropWhile p).takeWhile p) = [] := by
  intro l
  induction l with
  | nil => rfl
  | cons c t ih =>
    rw [List.dropWhile_cons]
    split
    · exact ih
    · rename_i hc
      rw [List.takeWhile_cons, if_neg hc]

/-- `subWords` across a word run followed by a non-word boundary. -/
theorem subWords_append_word (g : List Char → List Char) (u v : List Char)
    (hu : u ≠ []) (hall : u.all wordChar = true) (hv : v.takeWhile wordChar = []) :
    subWords g (u ++ v) = g u ++ subWords g v := by
  cases u with
  | nil => exact absurd rfl hu
  | cons c u' =>
    simp only [List.all_cons, Bool.and_eq_true] at hall
    rw [List.cons_append, subWords_cons_word g c (u' ++ v) hall.1]
    rw [show (c :: (u' ++ v)) = (c :: u') ++ v from rfl]
    rw [takeWhile_append_all wordChar (c :: u') v (by simp [hall.1, hall.2]), hv,
      dropWhile_append_all wordChar (c :: u') v (by simp [hall.1, hall.2]),
      dropWhile_of_takeWhile_nil wordChar v hv]
    rw [List.append_nil]

/-- A `subWords` result never starts with a word character when its input
does not. -/
theorem subWords_takeWhile_nil (g : List Char → List Char) (v : List Char)
    (hv : v.takeWhile wordChar = []) : (subWords g v).takeWhile wordChar = [] := by
  cases v with
  | nil => rfl
  | cons c t =>
    rw [List.takeWhile_cons] at hv
    cases hc : wordChar c with
    | true => rw [if_pos hc] at hv; exact absurd hv (by simp)
    | false =>
      rw [subWords_cons_not g c t hc, List.takeWhile_cons, if_neg (by simp [hc])]

/-- Word-wise substitutions compose word by word. -/
theorem subWords_comp (g g' : List Char → List Char) (hg : WordRunMap g) :
    ∀ (f : Nat) (l : List Char), l.length ≤ f →
      subWords g' (subWords g l) = subWords (fun w => g' (g w)) l := by
  intro f
  induction f with
  | zero =>
    intro l h1
    have : l = [] := List.eq_nil_of_length_eq_zero (Nat.le_zero.mp h1)
    subst this
    rfl
  | succ f ih =>
    intro l h1
    cases l with
    | nil => rfl
    | cons c t =>
      cases hc : wordChar c with
      | false =>
        have hlen1 : t.length ≤ f := by
          simp only [List.length_cons] at h1
          omega
        rw [subWords_cons_not g c t hc, subWords_cons_not g' c (subWords g t) hc,
          subWords_cons_not (fun w => g' (g w)) c t hc, ih t hlen1]
      | true =>
        have hu1 : (c :: t).takeWhile wordChar ≠ [] := by
          rw [List.takeWhile_cons, if_pos hc]
          simp
        have hu2 : ((c :: t).takeWhile wordChar).all wordChar = true := all_takeWhile _ _
        have hv : ((c :: t).dropWhile wordChar).takeWhile wordChar = [] :=
          takeWhile_dropWhile_nil wordChar (c :: t)
        have hvlen : ((c :: t).dropWhile wordChar).length ≤ f := by
          rw [List.dropWhile_cons]
          simp only [hc, if_true]
          have := dropWhile_length_le wordChar t
          simp only [List.length_cons] at h1
          omega
        rw [subWords_cons_word g c t hc,
          subWords_append_word g' (g ((c :: t).takeWhile wordChar))
            (subWords g ((c :: t).dropWhile wordChar))
            (hg _ hu1 hu2).1 (hg _ hu1 hu2).2
            (subWords_takeWhile_nil g _ hv),
          ih _ hvlen,
          subWords_cons_word (fun w => g' (g w)) c t hc]

/-- Word-wise substitutions of pointwise-equal word functions agree. -/
theorem subWords_congr (g g' : List Char → List Char)
    (h : ∀ w : List Char, w ≠ [] → w.all wordChar = true → g w = g' w) :
    ∀ (f : Nat) (l : List Char), l.length ≤ f → subWords g l = subWords g' l := by
  intro f
  induction f with
  | zero =>
    intro l h1
    have : l = [] := List.eq_nil_of_length_eq_zero (Nat.le_zero.mp h1)
    subst this
    rfl
  | succ f ih =>
    intro l h1
    cases l with
    | nil => rfl
    | cons c t =>
      cases hc : wordChar c with
      | false =>
        have hlen1 : t.length ≤ f := by
          simp only [List.length_cons] at h1
          omega
        rw [subWords_cons_not g c t hc, subWords_cons_not g' c t hc, ih t hlen1]
      | true =>
        have hu1 : (c :: t).takeWhile wordChar ≠ [] := by
          rw [List.takeWhile_cons, if_pos hc]
          simp
        have hvlen : ((c :: t).dropWhile wordChar).length ≤ f := by
          rw [List.dropWhile_cons]
          simp only [hc, if_true]
          have := dropWhile_length_le wordChar t
          simp only [List.length_cons] at h1
          omega
        rw [subWords_cons_word g c t hc, subWords_cons_word g' c t hc,
          h _ hu1 (all_takeWhile _ _), ih _ hvlen]

/-- The word-level action of one rule maps word runs to word runs, provided
the replacement itself is a non-empty word run. -/
theorem gw_WordRunMap (p : List (List Char)) (r : List Char)
    (hr1 : r ≠ []) (hr2 : r.all wordChar = true) : WordRunMap (gw p r) := by
  intro w hw hall
  unfold gw
  split
  · exact ⟨hr1, hr2⟩
  · exact ⟨hw, hall⟩

/-- Composition of word-run preservers. -/
theorem WordRunMap_comp (g g' : List Char → List Char)
    (hg : WordRunMap g) (hg' : WordRunMap g') : WordRunMap (fun w => g' (g w)) := by
  intro w hw hall
  exact hg' (g w) (hg w hw hall).1 (hg w hw hall).2

/-- The composite action preserves word runs. -/
theorem exonymG_WordRunMap : WordRunMap exonymG := by
  have h1 := gw_WordRunMap tiranPat "Tirana".data (by decide) (by decide)
  have h2 := gw_WordRunMap vlorPat "Valona".data (by decide) (by decide)
  have h3 := gw_WordRunMap durrPat "Durazzo".data (by decide) (by decide)
  have h4 := gw_WordRunMap shkodPat "Scutari".data (by decide) (by decide)
  intro w hw hall
  unfold exonymG
  obtain ⟨a1, a2⟩ := h1 w hw hall
  obtain ⟨b1, b2⟩ := h2 _ a1 a2
  obtain ⟨c1, c2⟩ := h3 _ b1 b2
  exact h4 _ c1 c2

/-- `map_exonyms` is the word-wise application of the composite action. -/
theorem map_exonyms_eq (s : String) :
    map_exonyms s = ⟨subWords exonymG s.data⟩ := by
  by_cases hs : s = ""
  · subst hs
    rfl
  · rw [map_exonyms, if_neg hs]
    show String.mk
      (subRule shkodPat "Scutari".data
        (subRule durrPat "Durazzo".data
          (subRule vlorPat "Valona".data
            (subRule tiranPat "Tirana".data s.data)))) = _
    unfold subRule
    rw [subWords_comp _ _ (gw_WordRunMap tiranPat "Tirana".data (by decide) (by decide))
      s.data.length s.data le_rfl]
    rw [subWords_comp _ _
      (WordRunMap_comp _ _
        (gw_WordRunMap tiranPat "Tirana".data (by decide) (by decide))
        (gw_WordRunMap vlorPat "Valona".data (by decide) (by decide)))
      s.data.length s.data le_rfl]
    rw [subWords_comp _ _
      (WordRunMap_comp _ _
        (WordRunMap_comp _ _
          (gw_WordRunMap tiranPat "Tirana".data (by decide) (by decide))
          (gw_WordRunMap vlorPat "Valona".data (by decide) (by decide)))
        (gw_WordRunMap durrPat "Durazzo".data (by decide) (by decide)))
      s.data.length s.data le_rfl]
    rfl

/-- The composite word action is idempotent on every word: a matched word is
replaced by a target that no rule matches again, an unmatched word is kept. -/
theorem exonymG_idem (w : List Char) : exonymG (exonymG w) = exonymG w := by
  by_cases h1 : matchWord tiranPat w = true
  · have hw : exonymG w = "Tirana".data := by
      unfold exonymG
      rw [show gw tiranPat ("Tirana".data) w = "Tirana".data from by simp [gw, h1]]
      decide
    rw [hw]
    decide
  · have hg1 : gw tiranPat "Tirana".data w = w := by simp [gw, h1]
    by_cases h2 : matchWord vlorPat w = true
    · have hw : exonymG w = "Valona".data := by
        unfold exonymG
        rw [hg1, show gw vlorPat ("Valona".data) w = "Valona".data from by simp [gw, h2]]
        decide
      rw [hw]
      decide
    · have hg2 : gw vlorPat "Valona".data w = w := by simp [gw, h2]
      by_cases h3 : matchWord durrPat w = true
      · have hw : exonymG w = "Durazzo".data := by
          unfold exonymG
          rw [hg1, hg2, show gw durrPat ("Durazzo".data) w = "Durazzo".data from by simp [gw, h3]]
          decide
        rw [hw]
        decide
      · have hg3 : gw durrPat "Durazzo".data w = w := by simp [gw, h3]
        by_cases h4 : matchWord shkodPat w = true
        · have hw : exonymG w = "Scutari".data := by
            unfold exonymG
            rw [hg1, hg2, hg3]
            simp [gw, h4]
          rw [hw]
          decide
        · have hw : exonymG w = w := by
            unfold exonymG
            rw [hg1, hg2, hg3]
            simp [gw, h4]
          rw [hw, hw]

/-- C8.  `map_exonyms` is idempotent: applying it twice is the same as once;
"Tiranë" maps to "Tirana", "Tirana" is left unchanged, and the empty input
is returned unchanged. -/
theorem map_exonyms_idempotent :
    (∀ s : String, map_exonyms (map_exonyms s) = map_exonyms s) ∧
    map_exonyms "Tiranë" = "Tirana" ∧
    map_exonyms "Tirana" = "Tirana" ∧
    map_exonyms "" = "" := by
  refine ⟨?_, by decide, by decide, rfl⟩
  intro s
  rw [map_exonyms_eq s, map_exonyms_eq]
  show String.mk (subWords exonymG (subWords exonymG s.data)) = _
  rw [subWords_comp _ _ exonymG_WordRunMap s.data.length s.data le_rfl]
  rw [subWords_congr (fun w => exonymG (exonymG w)) exonymG
    (fun w _ _ => exonymG_idem w) s.data.length s.data le_rfl]

end BirthCert

